import Mathlib

/-! # gofileproc: chunk splitter, CSV tokenizer and writer, dispatcher, JSON processor

A shallow embedding of `gofileproc.go`.  Byte slices are `List UInt8`.  Offsets
of type `int64` are natural numbers: they are never negative on the paths
that create them, and `splitAtNewlines_offsets_fit` bounds them by twice the
buffer length.  The `atomic.Uint64` counters are added modulo `2^64`.  A Go
run-time panic is `none` for the splitter and `Outcome.panic` for `Process`.

The transform is modelled twice.  `MemTransform`, used by `processChunkMem`
and `ProcessMem`, is the Go callback: it gets views into the chunk buffer and
can write into the buffer through them.  `Transform`, used by `processChunk`
and `Process`, is a function of the field values; `processChunkMem_refines`
shows that the two workers agree for every transform that writes no byte from
the end of its line on (`RespectsLines`).

`runtime.NumCPU()` is a parameter of the constructors.  `encoding/json` is a
parameter of `JSONProcess`: a decoder given by its three methods and an
encoder.  `arrayDecoder` is the decoder of the standard library on an array,
element by element; the loop of `JSONProcess` takes fuel, and a call that does
not return is `none` for every fuel.
-/

namespace Gofileproc

/-- One byte of a Go `[]byte`. -/
abbrev Byte := UInt8

/-- The byte `'\n'`. -/
def NL : Byte := 10

/-- The byte `'\r'`. -/
def CR : Byte := 13

/-- The byte `','`. -/
def COMMA : Byte := 44

/-- The byte `'"'`. -/
def QUOTE : Byte := 34

/-! ## Chunk splitter -/

/-- Go `type span struct { start, end int64 }`; the field `end` is spelled
`stop` because `end` is reserved. -/
structure span where
  start : Nat
  stop : Nat
  deriving DecidableEq, Repr

/-- The inner loop of `splitAtNewlines`:
`for end < len(data) && data[end] != '\n' { end++ }`.
`rest` is `data[end:]`, so `rest = []` is `end >= len(data)` and the head of
`rest` is `data[end]`. -/
def scanNewline : List Byte → Nat → Nat
  | [], e => e
  | c :: cs, e => if c ≠ NL then scanNewline cs (e + 1) else e

/-- One iteration body of the outer loop of `splitAtNewlines`: the value of
`end` that is stored in the span and becomes the next `start`. -/
def nextBoundary (data : List Byte) (size start : Nat) : Nat :=
  let e := scanNewline (data.drop (start + size)) (start + size)
  if e < data.length then e + 1 else e

/-- The outer loop of `splitAtNewlines` with `k` iterations left, followed by
the final `if start < len(data)` append. -/
def splitLoop (data : List Byte) (size : Nat) : Nat → Nat → List span
  | 0, start => if start < data.length then [⟨start, data.length⟩] else []
  | k + 1, start =>
    let e := nextBoundary data size start
    ⟨start, e⟩ :: splitLoop data size k e

/-- Go `splitAtNewlines(data, n)`.  `none` is the integer-division panic of
`int64(len(data)) / int64(n)` at `n = 0`; Go's `/` truncates toward zero. -/
def splitAtNewlines (data : List Byte) (n : Int) : Option (List span) :=
  if data.length = 0 then some []
  else if n = 0 then none
  else
    let size : Int := Int.tdiv (data.length : Int) n
    if size < 1024 then some [⟨0, data.length⟩]
    else some (splitLoop data size.toNat (n - 1).toNat 0)

/-! ## CSV tokenizer and writer -/

/-- Go slice expression `l[lo:hi]` on an in-range pair `lo <= hi <= len(l)`. -/
def slice (l : List Byte) (lo hi : Nat) : List Byte :=
  (l.take hi).drop lo

/-- The loop of `parseCSVLine` over `i`, with `rest = line[i:]`.  It yields the
index pairs `(start, i)` of the slices `line[start:i]` in the order they are
appended; the pair produced at the end of the line is `line[start:]`. -/
def parseLoop : List Byte → Nat → Nat → Bool → List (Nat × Nat)
  | [], i, start, _ => [(start, i)]
  | c :: cs, i, start, inQuotes =>
    if c = QUOTE then parseLoop cs (i + 1) start (!inQuotes)
    else if c = COMMA ∧ inQuotes = false then (start, i) :: parseLoop cs (i + 1) (i + 1) inQuotes
    else parseLoop cs (i + 1) start inQuotes

/-- Index ranges of the fields of `line`, as `parseCSVLine` cuts them. -/
def parseCSVRanges (line : List Byte) : List (Nat × Nat) :=
  parseLoop line 0 0 false

/-- Go `parseCSVLine(line, fields)`: the cut fields are appended to `fields`. -/
def parseCSVLine (line : List Byte) (fields : List (List Byte)) : List (List Byte) :=
  fields ++ (parseCSVRanges line).map (fun r => slice line r.1 r.2)

/-- The first inner loop of `writeCSVLine` (with its `break`): does the field
hold a comma, a quote or a newline. -/
def needQuote : List Byte → Bool
  | [] => false
  | c :: cs => if c = COMMA ∨ c = QUOTE ∨ c = NL then true else needQuote cs

/-- The second inner loop of `writeCSVLine`: append the bytes of the field,
doubling each quote. -/
def appendQuoted (out : List Byte) : List Byte → List Byte
  | [] => out
  | c :: cs =>
    if c = QUOTE then appendQuoted (out ++ [QUOTE, QUOTE]) cs
    else appendQuoted (out ++ [c]) cs

/-- What one iteration of the outer loop of `writeCSVLine` appends for the
field itself (the separator apart). -/
def writeField (out f : List Byte) : List Byte :=
  if needQuote f then appendQuoted (out ++ [QUOTE]) f ++ [QUOTE] else out ++ f

/-- The outer loop of `writeCSVLine` from index `i` on; `n` is `len(fields)`
and `i < len(fields)-1` is compared in `int`. -/
def writeLoop (n : Nat) : Nat → List (List Byte) → List Byte → List Byte
  | _, [], out => out
  | i, f :: fs, out =>
    let out1 := writeField out f
    let out2 := if (i : Int) < (n : Int) - 1 then out1 ++ [COMMA] else out1
    writeLoop n (i + 1) fs out2

/-- Go `writeCSVLine(out, fields)`. -/
def writeCSVLine (out : List Byte) (fields : List (List Byte)) : List Byte :=
  writeLoop fields.length 0 fields out ++ [NL]

/-! ## Chunk worker -/

/-- Go `type chunkResult struct`. -/
structure chunkResult where
  id : Nat
  data : List Byte
  lines : Nat
  deriving DecidableEq, Repr

/-- A transform taken as a function of the field values it is given.  This is
what a Go transform is when it neither reads nor writes the chunk buffer
beyond the line it is handed; the Go callback in general is a `MemTransform`. -/
abbrev Transform := Nat → List (List Byte) → List (List Byte)

/-- The two lines of `processChunk` that drop one trailing carriage return. -/
def stripCR (line : List Byte) : List Byte :=
  if line.length > 0 ∧ line.getLast? = some CR then line.dropLast else line

/-- The loop `for pos < len(chunk)` of `processChunk` for a transform that is a
function of the field values; the fuel bounds the number of iterations, and
`len(chunk)` is always enough because `pos` grows by at least one in each of
them. -/
def chunkLoop (transform : Transform) (chunk : List Byte) :
    Nat → Nat → Nat → List Byte → List Byte × Nat
  | 0, _, lineNum, out => (out, lineNum)
  | fuel + 1, pos, lineNum, out =>
    if pos < chunk.length then
      let e := scanNewline (chunk.drop pos) pos
      let line := stripCR (slice chunk pos e)
      if line.length > 0 then
        chunkLoop transform chunk fuel (e + 1) (lineNum + 1)
          (writeCSVLine out (transform lineNum (parseCSVLine line [])))
      else chunkLoop transform chunk fuel (e + 1) lineNum out
    else (out, lineNum)

/-- Go `processChunk(chunk, id, transform)` for a transform that is a function
of the field values, the counters apart: the dispatcher model adds them with
`addChunkStats` when the worker completes.  It is the code for the transforms
that satisfy `RespectsLines` (`processChunkMem_refines`); for a transform that
writes into the chunk buffer past its line the code is `processChunkMem`. -/
def processChunk (transform : Transform) (chunk : List Byte) (id : Nat) : chunkResult :=
  let r := chunkLoop transform chunk chunk.length 0 0 []
  ⟨id, r.1, r.2⟩

/-! ## Chunk worker over the shared chunk buffer

In Go the fields handed to the transform are sub-slices of the chunk buffer:
`line[start:i]` has length `i - start` and capacity up to the end of the
buffer, so a transform can write into the buffer through them. -/

/-- A Go `[]byte` as the transform sees it: a view `chunk[off : off+len]` whose
capacity runs to the end of the chunk buffer, or a slice with its own array. -/
inductive FieldRef where
  | view (off len : Nat)
  | owned (bytes : List Byte)
  deriving DecidableEq, Repr

/-- A transform as a Go function: it gets the line number, the chunk buffer
and the field views, and returns the buffer as it left it and its result. -/
abbrev MemTransform := Nat → List Byte → List FieldRef → List Byte × List FieldRef

/-- The bytes a field denotes in the buffer `chunk`. -/
def FieldRef.bytes (chunk : List Byte) : FieldRef → List Byte
  | .view off len => slice chunk off (off + len)
  | .owned bs => bs

/-- Overwrite `buf[off : off+len(bs)]` with `bs`. -/
def writeAt (buf : List Byte) (off : Nat) (bs : List Byte) : List Byte :=
  buf.take off ++ bs ++ buf.drop (off + bs.length)

/-- Go `append(f, suffix...)`: written in place when the capacity of `f`
suffices (for a view, up to the end of the chunk buffer, which `make` created
with capacity equal to its length), into a new array otherwise. -/
def goAppend (chunk : List Byte) (f : FieldRef) (suffix : List Byte) : List Byte × FieldRef :=
  match f with
  | .view off len =>
    if off + len + suffix.length ≤ chunk.length then
      (writeAt chunk (off + len) suffix, .view off (len + suffix.length))
    else (chunk, .owned (slice chunk off (off + len) ++ suffix))
  | .owned bs => (chunk, .owned (bs ++ suffix))

/-- The loop of `processChunk` with the chunk buffer as state. -/
def chunkLoopMem (transform : MemTransform) :
    Nat → List Byte → Nat → Nat → List Byte → List Byte × Nat
  | 0, _, _, lineNum, out => (out, lineNum)
  | fuel + 1, chunk, pos, lineNum, out =>
    if pos < chunk.length then
      let e := scanNewline (chunk.drop pos) pos
      let e1 := if e - pos > 0 ∧ chunk.get? (e - 1) = some CR then e - 1 else e
      if e1 - pos > 0 then
        let fields := (parseCSVRanges (slice chunk pos e1)).map
          (fun r => FieldRef.view (pos + r.1) (r.2 - r.1))
        let res := transform lineNum chunk fields
        chunkLoopMem transform fuel res.1 (e + 1) (lineNum + 1)
          (writeCSVLine out (res.2.map (FieldRef.bytes res.1)))
      else chunkLoopMem transform fuel chunk (e + 1) lineNum out
    else (out, lineNum)

/-- Go `processChunk` run on the chunk buffer, with a transform that may write
through the field views. -/
def processChunkMem (transform : MemTransform) (chunk : List Byte) (id : Nat) : chunkResult :=
  let r := chunkLoopMem transform chunk.length chunk 0 0 []
  ⟨id, r.1, r.2⟩

/-- A value transform run as a Go function that leaves the buffer alone and
returns slices of its own. -/
def liftTransform (t : Transform) : MemTransform :=
  fun lineNum chunk fields =>
    (chunk, (t lineNum (fields.map (FieldRef.bytes chunk))).map FieldRef.owned)

/-- The transform of `TestCSVProcessor` as a function of values: append
`suffix` to the field of index 1 when there is one. -/
def appendToSecond (suffix : List Byte) : Transform :=
  fun _ fields =>
    match fields with
    | f0 :: f1 :: rest => f0 :: (f1 ++ suffix) :: rest
    | _ => fields

/-- The transform of `TestCSVProcessor` as Go runs it:
`if len(fields) > 1 { fields[1] = append(fields[1], suffix...) }; return fields`. -/
def appendToSecondMem (suffix : List Byte) : MemTransform :=
  fun _ chunk fields =>
    match fields with
    | f0 :: f1 :: rest =>
      let r := goAppend chunk f1 suffix
      (r.1, f0 :: r.2 :: rest)
    | _ => (chunk, fields)

/-- The transform of `TestEmptyFile` as Go runs it: `return fields`. -/
def returnFieldsMem : MemTransform :=
  fun _ chunk fields => (chunk, fields)

/-- The field views `processChunk` hands to the transform for the line
`chunk[pos:e1]`. -/
def lineViews (chunk : List Byte) (pos e1 : Nat) : List FieldRef :=
  (parseCSVRanges (slice chunk pos e1)).map (fun r => FieldRef.view (pos + r.1) (r.2 - r.1))

/-- The Go transform `t` stays within the lines it is handed and computes `f`:
on every non-empty line `chunk[pos:e1]` it keeps the length of the buffer,
writes no byte from the end of the line on (it may change the bytes of the
line itself), and the fields it returns hold the bytes `f` returns for the
fields of the line. -/
def RespectsLines (t : MemTransform) (f : Transform) : Prop :=
  ∀ (i : Nat) (chunk : List Byte) (pos e1 : Nat), pos < e1 → e1 ≤ chunk.length →
    (t i chunk (lineViews chunk pos e1)).1.length = chunk.length ∧
    (t i chunk (lineViews chunk pos e1)).1.drop e1 = chunk.drop e1 ∧
    (t i chunk (lineViews chunk pos e1)).2.map
        (FieldRef.bytes (t i chunk (lineViews chunk pos e1)).1) =
      f i (parseCSVLine (slice chunk pos e1) [])

/-! ## Dispatcher -/

/-- Go `type Stats struct`, the three `atomic.Uint64` counters. -/
structure Stats where
  LinesProcessed : Nat
  BytesRead : Nat
  BytesWritten : Nat
  deriving DecidableEq, Repr

/-- Go `atomic.Uint64.Add`. -/
def add64 (a b : Nat) : Nat := (a + b) % 2 ^ 64

/-- The two `Stats` additions at the end of `processChunk`. -/
def addChunkStats (s : Stats) (lines chunkLen : Nat) : Stats :=
  { s with LinesProcessed := add64 s.LinesProcessed lines,
           BytesRead := add64 s.BytesRead chunkLen }

/-- The copy `chunkData := make([]byte, c.end-c.start); copy(chunkData,
data[c.start:c.end])`; `none` is the panic of an out-of-range slice. -/
def copySpan (data : List Byte) (c : span) : Option (List Byte) :=
  if c.start ≤ c.stop ∧ c.stop ≤ data.length then some (slice data c.start c.stop) else none

/-- The copies of all spans in the order of the dispatch loop. -/
def copySpans (data : List Byte) : List span → Option (List (List Byte))
  | [] => some []
  | c :: cs =>
    match copySpan data c with
    | none => none
    | some buf =>
      match copySpans data cs with
      | none => none
      | some bufs => some (buf :: bufs)

/-- The goroutines of `Process`, completing in the order `order` (a list of
chunk ids): each stores its result in `results[id]` and adds its counters. -/
def runWorkers (worker : List Byte → Nat → chunkResult) (bufs : List (List Byte)) :
    List Nat → Stats × List (Option chunkResult) → Stats × List (Option chunkResult)
  | [], st => st
  | id :: rest, st =>
    match bufs.get? id with
    | none => runWorkers worker bufs rest st
    | some buf =>
      let r := worker buf id
      runWorkers worker bufs rest (addChunkStats st.1 r.lines buf.length, st.2.set id (some r))

/-- The final loop of `Process` over `results`: the bytes written to the
output file and the `BytesWritten` additions. -/
def writeResults : List (Option chunkResult) → List Byte × Stats → List Byte × Stats
  | [], acc => acc
  | none :: rs, acc => writeResults rs acc
  | some r :: rs, acc =>
    writeResults rs
      (acc.1 ++ r.data, { acc.2 with BytesWritten := add64 acc.2.BytesWritten r.data.length })

/-- How a call of `Process` ends: a run-time panic, a returned error, or `nil`.
`output` is the content of the output file, `none` when `Process` never
created it. -/
inductive Outcome where
  | panic
  | error (stats : Stats)
  | ok (output : Option (List Byte)) (stats : Stats)
  deriving DecidableEq, Repr

/-- Go `CSVProcessor.Process` after a successful `mmapFile`, for any chunk
worker.  `stats` are the counters before the call, `workers` is
`p.config.Workers`, `order` the completion order of the goroutines and
`createOk` whether `os.Create` succeeds; writes to the created file are taken
to succeed, as the code ignores their result. -/
def ProcessWith (worker : List Byte → Nat → chunkResult) (stats : Stats) (data : List Byte)
    (workers : Int) (order : List Nat) (createOk : Bool) : Outcome :=
  if data.length = 0 then Outcome.ok none stats
  else
    match splitAtNewlines data workers with
    | none => Outcome.panic
    | some chunks =>
      match copySpans data chunks with
      | none => Outcome.panic
      | some bufs =>
        let st := runWorkers worker bufs order (stats, List.replicate chunks.length none)
        if createOk then
          let w := writeResults st.2 ([], st.1)
          Outcome.ok (some w.1) w.2
        else Outcome.error st.1

/-- Go `CSVProcessor.Process` with a transform that is a function of values. -/
def Process (transform : Transform) (stats : Stats) (data : List Byte)
    (workers : Int) (order : List Nat) (createOk : Bool) : Outcome :=
  ProcessWith (processChunk transform) stats data workers order createOk

/-- Go `CSVProcessor.Process` with a transform run on the chunk buffer. -/
def ProcessMem (transform : MemTransform) (stats : Stats) (data : List Byte)
    (workers : Int) (order : List Nat) (createOk : Bool) : Outcome :=
  ProcessWith (processChunkMem transform) stats data workers order createOk


/-! ## Specification-side notions for the splitter -/

/-- The spans start at `s` and each one starts where the one before stopped. -/
def Contiguous : Nat → List span → Prop
  | _, [] => True
  | s, c :: cs => c.start = s ∧ Contiguous c.stop cs

/-- Where a contiguous run of spans that starts at `s` stops. -/
def chainEnd : Nat → List span → Nat
  | s, [] => s
  | _, c :: cs => chainEnd c.stop cs

/-- The offsets at which a span starts or stops. -/
def boundaries (spans : List span) : List Nat :=
  spans.map span.start ++ spans.map span.stop


/-! ## Specification-side notions for the CSV writer and tokenizer -/

/-- Join byte strings with a separator between each two neighbours. -/
def joinWith (sep : List Byte) : List (List Byte) → List Byte
  | [] => []
  | [x] => x
  | x :: y :: rest => x ++ sep ++ joinWith sep (y :: rest)

/-- The writer's encoding of one field in the spec's words: wrapped in quotes
with every quote inside doubled exactly when the field holds a comma, a quote
or a newline byte, verbatim otherwise. -/
def specEncodeField (f : List Byte) : List Byte :=
  if ∃ c ∈ f, c = COMMA ∨ c = QUOTE ∨ c = NL then
    [QUOTE] ++ f.flatMap (fun c => if c = QUOTE then [QUOTE, QUOTE] else [c]) ++ [QUOTE]
  else f

/-- The writer in the spec's words: the prefix, the encoded fields joined with
commas, one newline. -/
def specWriteLine (out : List Byte) (fields : List (List Byte)) : List Byte :=
  out ++ joinWith [COMMA] (fields.map specEncodeField) ++ [NL]

/-- The number of quote bytes in `line[0:i]`. -/
def quotesBefore (line : List Byte) (i : Nat) : Nat :=
  (line.take i).count QUOTE

/-- Offset `i` holds a comma outside quotes: a comma preceded in the line by an
even number of quote bytes. -/
def isSplitPoint (line : List Byte) (i : Nat) : Bool :=
  (line)[i]? = some COMMA && quotesBefore line i % 2 = 0

/-- The offsets of the commas outside quotes, in increasing order. -/
def splitPoints (line : List Byte) : List Nat :=
  (List.range line.length).filter (isSplitPoint line)

/-- The segments of `line` from offset `s` on, cut at the given offsets (the
byte at a cut offset belongs to no segment); the last segment runs to the end
of the line. -/
def cutAt (line : List Byte) : Nat → List Nat → List (List Byte)
  | s, [] => [slice line s line.length]
  | s, p :: ps => slice line s p :: cutAt line (p + 1) ps

/-- The tokenizer in the spec's words: split at the commas outside quotes. -/
def specParseLine (line : List Byte) : List (List Byte) :=
  cutAt line 0 (splitPoints line)

/-! ## Specification-side notions for the chunk worker -/

/-- The newline-delimited segments of a buffer, in order, newlines removed; the
bytes after the last newline form the last segment (empty when the buffer ends
in a newline or is empty). -/
def segments : List Byte → List (List Byte)
  | [] => [[]]
  | c :: cs =>
    if c = NL then [] :: segments cs
    else
      match segments cs with
      | [] => [[c]]
      | s :: ss => (c :: s) :: ss

/-- The lines a worker processes: the segments with one trailing carriage
return removed, the zero-length ones skipped. -/
def nonEmptyLines (buf : List Byte) : List (List Byte) :=
  ((segments buf).map stripCR).filter (fun s => decide (s ≠ []))

/-- The output of a worker in the spec's words: for the kept lines in order,
the writer's line for the transform of the tokenized line, the line index
counting the kept lines from `i`. -/
def specChunkOut (transform : Transform) : Nat → List (List Byte) → List Byte
  | _, [] => []
  | i, l :: ls =>
    writeCSVLine [] (transform i (parseCSVLine l [])) ++ specChunkOut transform (i + 1) ls

/-! ## Specification-side notions for the dispatcher -/

/-- The bytes `data[start:end]` of each span, in span order. -/
def spanBytes (data : List Byte) (spans : List span) : List (List Byte) :=
  spans.map (fun c => slice data c.start c.stop)

/-- The results of the workers in chunk-id order: the worker applied to each
buffer with its index, counted from `i`. -/
def resultsInOrder (worker : List Byte → Nat → chunkResult) : Nat → List (List Byte) → List chunkResult
  | _, [] => []
  | i, b :: bs => worker b i :: resultsInOrder worker (i + 1) bs

/-- The concatenation of the outputs of the workers in chunk-id order. -/
def concatOutputs (worker : List Byte → Nat → chunkResult) (bufs : List (List Byte)) : List Byte :=
  ((resultsInOrder worker 0 bufs).map chunkResult.data).flatten

/-! ## The scenario of `TestCSVProcessor` -/

/-- The bytes of an ASCII text. -/
def bytes (s : String) : List Byte :=
  s.toList.map (fun c => UInt8.ofNat c.toNat)

/-- The input file of `TestCSVProcessor`. -/
def testInput : List Byte :=
  bytes "id,name,value\n1,foo,100\n2,bar,200\n3,baz,300\n"

/-! ## Specification-side notions for tokenizing the writer's line -/

/-- The writer's encoding of a field without a newline byte, in the words of
the claim on tokenizing the writer's line: verbatim if the field has no comma
and no quote, wrapped in quotes with the inner quotes doubled otherwise. -/
def specQuoteField (f : List Byte) : List Byte :=
  if ∃ c ∈ f, c = COMMA ∨ c = QUOTE then
    [QUOTE] ++ f.flatMap (fun c => if c = QUOTE then [QUOTE, QUOTE] else [c]) ++ [QUOTE]
  else f

/-! ## Configuration -/

/-- Go `type Config struct`. -/
structure Config where
  Workers : Int
  ChunkSize : Int
  deriving DecidableEq, Repr

/-- Go `DefaultConfig()`, with `numCPU` the value of `runtime.NumCPU()`. -/
def DefaultConfig (numCPU : Int) : Config :=
  let workers := if numCPU > 32 then 32 else numCPU
  { Workers := workers, ChunkSize := 2 * 1024 * 1024 }

/-- Go `type CSVProcessor struct`. -/
structure CSVProcessor where
  config : Config
  Stats : Stats
  deriving DecidableEq, Repr

/-- Go `type JSONProcessor struct`. -/
structure JSONProcessor where
  config : Config
  Stats : Stats
  deriving DecidableEq, Repr

/-- Go `NewCSVProcessor(config)`, with `numCPU` the value of `runtime.NumCPU()`;
the counters of the new processor are zero. -/
def NewCSVProcessor (numCPU : Int) (config : Config) : CSVProcessor :=
  let config1 := if config.Workers = 0 then { config with Workers := numCPU } else config
  { config := config1, Stats := ⟨0, 0, 0⟩ }

/-- Go `NewJSONProcessor(config)`, with `numCPU` the value of `runtime.NumCPU()`. -/
def NewJSONProcessor (numCPU : Int) (config : Config) : JSONProcessor :=
  let config1 := if config.Workers = 0 then { config with Workers := numCPU } else config
  { config := config1, Stats := ⟨0, 0, 0⟩ }

/-! ## JSON streaming processor

`encoding/json` is not part of the repository: `JSONProcessor.Process` is
embedded over any decoder and any encoder, given as parameters. -/

/-- A `json.Token` as far as `Process` looks at it: a `json.Delim` or any other
token (a boolean, a number, a string, `null`). -/
inductive Token where
  | delim (c : Char)
  | other
  deriving DecidableEq, Repr

/-- The three methods of `*json.Decoder` that `Process` calls, on decoder
states of type `σ`: `Token()` and `Decode(&obj)` return `none` for an error,
together with the state they leave; `More()` reports whether the current
array has another element. -/
structure Decoder (σ Obj : Type) where
  token : σ → Option Token × σ
  more : σ → Bool
  decode : σ → Option Obj × σ

/-- The error `JSONProcessor.Process` returns: the error of `dec.Token()`, or
the format error `expected JSON array`. -/
inductive JSONError where
  | token
  | expectedArray
  deriving DecidableEq, Repr

/-- How a call of `JSONProcessor.Process` ends once the input is open and the
output file created: with an error or with `nil`; `output` is the content of
the output file and `stats` the counters. -/
inductive JSONOutcome where
  | error (e : JSONError) (output : List Byte) (stats : Stats)
  | ok (output : List Byte) (stats : Stats)
  deriving DecidableEq, Repr

/-- The loop `for dec.More()` of `JSONProcessor.Process`.  `marshal` is
`json.Marshal` (`none` for an error), `first` the flag of the code, `out` the
bytes written so far.  The loop has no bound of its own: `none` is the loop
still running when the fuel is used up. -/
def jsonLoop {σ Obj : Type} (d : Decoder σ Obj) (marshal : Obj → Option (List Byte))
    (transform : Obj → Obj) : Nat → σ → Bool → List Byte → Stats → Option (List Byte × Stats)
  | 0, _, _, _, _ => none
  | fuel + 1, s, first, out, stats =>
    if d.more s then
      match d.decode s with
      | (none, s1) => jsonLoop d marshal transform fuel s1 first out stats
      | (some obj, s1) =>
        match marshal (transform obj) with
        | none => jsonLoop d marshal transform fuel s1 first out stats
        | some data =>
          let out1 := if first then out else out ++ bytes ",\n"
          jsonLoop d marshal transform fuel s1 false (out1 ++ data)
            { stats with LinesProcessed := add64 stats.LinesProcessed 1 }
    else some (out, stats)

/-- Go `JSONProcessor.Process` after `os.Open` and `os.Create` have succeeded,
from the decoder state `s0` on the input; the writes to the output file are
taken to succeed, as the code ignores their result.  `none` is a call that
has not returned within the fuel. -/
def JSONProcess {σ Obj : Type} (d : Decoder σ Obj) (marshal : Obj → Option (List Byte))
    (transform : Obj → Obj) (stats : Stats) (s0 : σ) (fuel : Nat) : Option JSONOutcome :=
  match d.token s0 with
  | (none, _) => some (JSONOutcome.error JSONError.token [] stats)
  | (some (Token.delim c), s1) =>
    if c ≠ '[' then some (JSONOutcome.error JSONError.expectedArray [] stats)
    else
      match jsonLoop d marshal transform fuel s1 true (bytes "[\n") stats with
      | none => none
      | some r => some (JSONOutcome.ok (r.1 ++ bytes "\n]") r.2)
  | (some Token.other, _) => some (JSONOutcome.error JSONError.expectedArray [] stats)

/-- An element of the input array as the decoder of `encoding/json` treats it.
An `object` is decoded.  A `notObject` is a well-formed value of another kind
(a number, a string, an array): `Decode` reads it to its end and returns an
`UnmarshalTypeError`.  A `malformed` element is text that is no JSON value:
`Decode` returns a `SyntaxError` that the decoder keeps, so that every later
`Decode` returns it again without reading, while `More` still sees the text. -/
inductive Element (Obj : Type) where
  | object (o : Obj)
  | notObject
  | malformed
  deriving Repr

/-- The decoder of `encoding/json` on an input that starts with `[`, at the
granularity of the array elements; the state is the elements still to read. -/
def arrayDecoder (Obj : Type) : Decoder (List (Element Obj)) Obj where
  token := fun s => (some (Token.delim '['), s)
  more := fun s => !s.isEmpty
  decode := fun s =>
    match s with
    | [] => (none, [])
    | Element.object o :: rest => (some o, rest)
    | Element.notObject :: rest => (none, rest)
    | Element.malformed :: rest => (none, Element.malformed :: rest)

/-- The decoder of `encoding/json` on an input that is one JSON string: the
first token is that string, and there is nothing to decode after it. -/
def stringDecoder (Obj : Type) : Decoder Unit Obj where
  token := fun s => (some Token.other, s)
  more := fun _ => false
  decode := fun s => (none, s)

/-! ## Specification-side notions for the JSON processor -/

/-- From the state `s` the decoder reports the results `rs`, one per element it
moves past (`none` for an element whose `Decode` fails), and then no more. -/
inductive Trace {σ Obj : Type} (d : Decoder σ Obj) : σ → List (Option Obj) → Prop where
  | done (s : σ) : d.more s = false → Trace d s []
  | step (s s1 : σ) (r : Option Obj) (rs : List (Option Obj)) :
      d.more s = true → d.decode s = (r, s1) → Trace d s1 rs → Trace d s (r :: rs)

/-- The encodings that get written: those of the elements that decode and
whose transform encodes. -/
def written {Obj : Type} (marshal : Obj → Option (List Byte)) (transform : Obj → Obj)
    (rs : List (Option Obj)) : List (List Byte) :=
  rs.filterMap (fun r => r.bind (fun o => marshal (transform o)))

/-- The counters after `k` elements were written. -/
def addLines (stats : Stats) : Nat → Stats
  | 0 => stats
  | k + 1 => addLines { stats with LinesProcessed := add64 stats.LinesProcessed 1 } k

/-- The bytes the loop appends for the encodings `encs`: a separator before
each but the very first. -/
def emitAll (sep : List Byte) : Bool → List (List Byte) → List Byte
  | _, [] => []
  | true, e :: es => e ++ emitAll sep false es
  | false, e :: es => sep ++ e ++ emitAll sep false es

/-! ## The scenario of `TestJSONProcessor` -/

/-- A value of the objects of the scenarios: a string or a boolean. -/
inductive JValue where
  | str (s : String)
  | bool (b : Bool)
  deriving DecidableEq, Repr

/-- An object of the scenarios: its members, kept in the order of their keys,
the order in which `json.Marshal` writes the keys of a map. -/
abbrev JObject := List (String × JValue)

/-- The compact encoding of a value of the scenarios (strings without
characters to escape). -/
def marshalValue : JValue → List Byte
  | JValue.str s => bytes "\"" ++ bytes s ++ bytes "\""
  | JValue.bool true => bytes "true"
  | JValue.bool false => bytes "false"

/-- The compact encoding of an object of the scenarios. -/
def marshalObject (o : JObject) : Option (List Byte) :=
  some (bytes "\x7b" ++
    joinWith (bytes ",") (o.map (fun kv => bytes "\"" ++ bytes kv.1 ++ bytes "\":" ++ marshalValue kv.2))
    ++ bytes "\x7d")

/-- The order in which `json.Marshal` sorts the keys of a map, on keys made of
ASCII characters: character by character, a proper initial part first. -/
def keyBefore : List Char → List Char → Bool
  | [], [] => false
  | [], _ :: _ => true
  | _ :: _, [] => false
  | a :: as, b :: bs =>
    if a.toNat < b.toNat then true
    else if a.toNat = b.toNat then keyBefore as bs
    else false

/-- Go `obj[k] = v` on an object kept in key order: the member of key `k` is
replaced, or put in its place among the keys. -/
def setKey (k : String) (v : JValue) : JObject → JObject
  | [] => [(k, v)]
  | (k1, v1) :: rest =>
    if k1 = k then (k, v) :: rest
    else if keyBefore k.toList k1.toList then (k, v) :: (k1, v1) :: rest
    else (k1, v1) :: setKey k v rest

/-- The transform of `TestJSONProcessor`: `obj["processed"] = true`. -/
def setProcessed (o : JObject) : JObject :=
  setKey "processed" (JValue.bool true) o
/-! ## The splitter: lemmas -/

theorem scanNewline_ge (l : List Byte) (e : Nat) : e ≤ scanNewline l e := by
  induction l generalizing e with
  | nil => simp [scanNewline]
  | cons c cs ih =>
    simp only [scanNewline]
    split
    · have := ih (e + 1); omega
    · exact Nat.le_refl e

theorem scanNewline_le (l : List Byte) (e : Nat) : scanNewline l e ≤ e + l.length := by
  induction l generalizing e with
  | nil => simp [scanNewline]
  | cons c cs ih =>
    simp only [scanNewline, List.length_cons]
    split
    · have := ih (e + 1); omega
    · omega

theorem scanNewline_stop (l : List Byte) (e : Nat) (h : scanNewline l e < e + l.length) :
    l[scanNewline l e - e]? = some NL := by
  induction l generalizing e with
  | nil => simp [scanNewline] at h
  | cons c cs ih =>
    simp only [scanNewline] at h ⊢
    split
    · rename_i hc
      rw [if_pos hc] at h
      have h1 := scanNewline_ge cs (e + 1)
      have h2 := ih (e + 1) (by simp only [List.length_cons] at h; omega)
      have : scanNewline cs (e + 1) - e = (scanNewline cs (e + 1) - (e + 1)) + 1 := by omega
      rw [this, List.getElem?_cons_succ]
      exact h2
    · rename_i hc
      have : c = NL := by simpa using hc
      simp [this]

theorem scanNewline_before (l : List Byte) (e j : Nat) (h : j < scanNewline l e - e) :
    ∃ c, l[j]? = some c ∧ c ≠ NL := by
  induction l generalizing e j with
  | nil => simp [scanNewline] at h
  | cons c cs ih =>
    simp only [scanNewline] at h
    split at h
    · rename_i hc
      cases j with
      | zero => exact ⟨c, by simp, hc⟩
      | succ j =>
        have h1 := scanNewline_ge cs (e + 1)
        obtain ⟨d, hd, hne⟩ := ih (e + 1) j (by omega)
        exact ⟨d, by simpa using hd, hne⟩
    · omega

theorem scanNewline_no_nl (l : List Byte) (e : Nat) (h : ∀ c ∈ l, c ≠ NL) :
    scanNewline l e = e + l.length := by
  induction l generalizing e with
  | nil => simp [scanNewline]
  | cons c cs ih =>
    have hc : c ≠ NL := h c (List.mem_cons_self _ _)
    have := ih (e + 1) (fun x hx => h x (List.mem_cons_of_mem _ hx))
    simp only [scanNewline, hc, ne_eq, not_false_eq_true, if_true, this, List.length_cons]
    omega

theorem nextBoundary_ge (data : List Byte) (size start : Nat) :
    start + size ≤ nextBoundary data size start := by
  unfold nextBoundary
  have := scanNewline_ge (data.drop (start + size)) (start + size)
  simp only
  split <;> omega

/-- A boundary strictly inside the buffer comes right after a newline byte. -/
theorem nextBoundary_after_nl (data : List Byte) (size start : Nat)
    (h : nextBoundary data size start < data.length) :
    data[nextBoundary data size start - 1]? = some NL := by
  unfold nextBoundary at h ⊢
  simp only at h ⊢
  have hge := scanNewline_ge (data.drop (start + size)) (start + size)
  split
  · rename_i hlt
    have hs := scanNewline_stop (data.drop (start + size)) (start + size)
      (by simp only [List.length_drop]; omega)
    rw [List.getElem?_drop] at hs
    have e1 : start + size + (scanNewline (data.drop (start + size)) (start + size) - (start + size))
        = scanNewline (data.drop (start + size)) (start + size) + 1 - 1 := by omega
    rw [← e1]; exact hs
  · rename_i hlt
    rw [if_neg hlt] at h
    omega

theorem splitLoop_contiguous (data : List Byte) (size k start : Nat) :
    Contiguous start (splitLoop data size k start) := by
  induction k generalizing start with
  | zero =>
    simp only [splitLoop]
    split <;> simp [Contiguous]
  | succ k ih =>
    simp only [splitLoop, Contiguous, true_and]
    exact ih _

theorem splitLoop_length_le (data : List Byte) (size k start : Nat) :
    (splitLoop data size k start).length ≤ k + 1 := by
  induction k generalizing start with
  | zero =>
    simp only [splitLoop]
    split <;> simp
  | succ k ih =>
    simp only [splitLoop, List.length_cons]
    have := ih (nextBoundary data size start)
    omega

theorem splitLoop_length_pos (data : List Byte) (size k start : Nat)
    (h : start < data.length ∨ 0 < k) : 0 < (splitLoop data size k start).length := by
  cases k with
  | zero =>
    rcases h with h | h
    · simp [splitLoop, h]
    · omega
  | succ k => simp [splitLoop]

theorem splitLoop_start_le_stop (data : List Byte) (size k start : Nat) :
    ∀ c ∈ splitLoop data size k start, c.start ≤ c.stop := by
  induction k generalizing start with
  | zero =>
    simp only [splitLoop]
    split
    · intro c hc
      simp only [List.mem_singleton] at hc
      subst hc; simp only; omega
    · simp
  | succ k ih =>
    intro c hc
    simp only [splitLoop, List.mem_cons] at hc
    rcases hc with hc | hc
    · subst hc
      have := nextBoundary_ge data size start
      simp only; omega
    · exact ih _ c hc

/-- An offset is at the edge of the buffer or right after a newline byte. -/
theorem splitLoop_aligned (data : List Byte) (size k start : Nat)
    (hs : 0 < start → start < data.length → data[start - 1]? = some NL) :
    ∀ c ∈ splitLoop data size k start,
      (0 < c.start → c.start < data.length → data[c.start - 1]? = some NL) ∧
      (0 < c.stop → c.stop < data.length → data[c.stop - 1]? = some NL) := by
  induction k generalizing start with
  | zero =>
    simp only [splitLoop]
    split
    · intro c hc
      simp only [List.mem_singleton] at hc
      subst hc
      exact ⟨hs, fun _ h => absurd h (Nat.lt_irrefl _)⟩
    · simp
  | succ k ih =>
    intro c hc
    simp only [splitLoop, List.mem_cons] at hc
    have hb : 0 < nextBoundary data size start → nextBoundary data size start < data.length →
        data[nextBoundary data size start - 1]? = some NL :=
      fun _ h => nextBoundary_after_nl data size start h
    rcases hc with hc | hc
    · subst hc
      exact ⟨hs, hb⟩
    · exact ih _ hb c hc

theorem splitLoop_chainEnd_ge (data : List Byte) (size k start : Nat) :
    data.length ≤ chainEnd start (splitLoop data size k start) := by
  induction k generalizing start with
  | zero =>
    simp only [splitLoop]
    split
    · simp [chainEnd]
    · simp only [chainEnd]; omega
  | succ k ih =>
    simp only [splitLoop, chainEnd]
    exact ih _

theorem contiguous_cover (spans : List span) (s p : Nat) (hc : Contiguous s spans)
    (h1 : s ≤ p) (h2 : p < chainEnd s spans) :
    ∃ c ∈ spans, c.start ≤ p ∧ p < c.stop := by
  induction spans generalizing s with
  | nil => simp only [chainEnd] at h2; omega
  | cons c cs ih =>
    simp only [Contiguous] at hc
    simp only [chainEnd] at h2
    by_cases hp : p < c.stop
    · exact ⟨c, List.mem_cons_self _ _, by omega, hp⟩
    · obtain ⟨d, hd, h3⟩ := ih c.stop hc.2 (by omega) h2
      exact ⟨d, List.mem_cons_of_mem _ hd, h3⟩

/-- The two shapes of a result of the splitter on a non-empty buffer. -/
theorem splitAtNewlines_cases (data : List Byte) (n : Int) (hd : data.length ≠ 0) (hn : 1 ≤ n) :
    splitAtNewlines data n = some [⟨0, data.length⟩] ∨
    ∃ size k : Nat, splitAtNewlines data n = some (splitLoop data size k 0) ∧
      (k : Int) + 1 = n ∧ 1024 ≤ size := by
  unfold splitAtNewlines
  rw [if_neg hd, if_neg (by omega)]
  simp only
  split
  · exact Or.inl rfl
  · rename_i hsz
    refine Or.inr ⟨(Int.tdiv (data.length : Int) n).toNat, (n - 1).toNat, rfl, by omega, by omega⟩

theorem nextBoundary_no_nl (data : List Byte) (size start : Nat) (h : ∀ c ∈ data, c ≠ NL) :
    nextBoundary data size start = max (start + size) data.length := by
  unfold nextBoundary
  rw [scanNewline_no_nl _ _ (fun c hc => h c (List.mem_of_mem_drop hc))]
  simp only [List.length_drop]
  split <;> omega

/-- On a buffer of 3072 bytes without a newline, split three ways, the second
span runs 1024 bytes past the end of the buffer. -/
theorem splitAtNewlines_no_nl_3072 (data : List Byte) (hl : data.length = 3072)
    (h : ∀ c ∈ data, c ≠ NL) :
    splitAtNewlines data 3 = some [⟨0, 3072⟩, ⟨3072, 4096⟩] := by
  have hsz : Int.tdiv (data.length : Int) 3 = 1024 := by rw [hl]; decide
  unfold splitAtNewlines
  rw [if_neg (by omega), if_neg (by decide)]
  simp only [hsz]
  rw [if_neg (by decide)]
  have e1 : (1024 : Int).toNat = 1024 := by decide
  have e2 : ((3 : Int) - 1).toNat = 2 := by decide
  rw [e1, e2]
  simp only [splitLoop, nextBoundary_no_nl data _ _ h, hl]
  simp

theorem replicate_a_no_nl (m : Nat) : ∀ c ∈ List.replicate m (97 : Byte), c ≠ NL := by
  intro c hc
  rw [List.eq_of_mem_replicate hc]
  decide

theorem copySpans_overrun (data : List Byte) (hl : data.length = 3072) :
    copySpans data [⟨0, 3072⟩, ⟨3072, 4096⟩] = none := by
  simp [copySpans, copySpan, hl]

/-! ## Claims on the splitter -/

/-- C1 (fails on the code): on the buffer of 3072 bytes `'a'` split three ways
the spans are `{0, 3072}` and `{3072, 4096}`: they are contiguous, but the last
one stops 1024 bytes past the end of the buffer, so the slice
`data[3072:4096]` taken for it panics and the spans do not reproduce the
buffer. -/
theorem splitAtNewlines_last_span_overruns :
    splitAtNewlines (List.replicate 3072 97) 3 = some [⟨0, 3072⟩, ⟨3072, 4096⟩] ∧
    chainEnd 0 [⟨0, 3072⟩, ⟨3072, 4096⟩] ≠ (List.replicate 3072 (97 : Byte)).length ∧
    copySpans (List.replicate 3072 97) [⟨0, 3072⟩, ⟨3072, 4096⟩] = none := by
  refine ⟨splitAtNewlines_no_nl_3072 _ (List.length_replicate _ _) (replicate_a_no_nl _), ?_, ?_⟩
  · rw [List.length_replicate]
    simp only [chainEnd]
    decide
  · exact copySpans_overrun _ (List.length_replicate _ _)

/-- For every buffer and every `n >= 1`, each offset at which a span of
`splitAtNewlines` starts or stops and that lies strictly inside the buffer
comes right after a newline byte; hence a final line without a trailing
newline (the bytes from `p` on hold no newline) is not cut: one span holds it
from `p` to the end of the buffer.  That span need not be the last one
(`final_line_not_in_last_span`). -/
theorem splitAtNewlines_boundaries_after_newline (data : List Byte) (n : Int) (hn : 1 ≤ n) :
    ∃ spans, splitAtNewlines data n = some spans ∧
      (∀ b ∈ boundaries spans, 0 < b → b < data.length → data[b - 1]? = some NL) ∧
      (∀ p, p < data.length → (∀ j, p ≤ j → j < data.length → data[j]? ≠ some NL) →
        ∃ c ∈ spans, c.start ≤ p ∧ data.length ≤ c.stop) := by
  by_cases hd : data.length = 0
  · refine ⟨[], by simp [splitAtNewlines, hd], by simp [boundaries], ?_⟩
    intro p hp; omega
  · have key : ∀ spans : List span, Contiguous 0 spans → data.length ≤ chainEnd 0 spans →
        (∀ c ∈ spans, (0 < c.start → c.start < data.length → data[c.start - 1]? = some NL) ∧
          (0 < c.stop → c.stop < data.length → data[c.stop - 1]? = some NL)) →
        (∀ b ∈ boundaries spans, 0 < b → b < data.length → data[b - 1]? = some NL) ∧
        (∀ p, p < data.length → (∀ j, p ≤ j → j < data.length → data[j]? ≠ some NL) →
          ∃ c ∈ spans, c.start ≤ p ∧ data.length ≤ c.stop) := by
      intro spans hc he ha
      constructor
      · intro b hb
        simp only [boundaries, List.mem_append, List.mem_map] at hb
        rcases hb with ⟨c, hc1, rfl⟩ | ⟨c, hc1, rfl⟩
        · exact (ha c hc1).1
        · exact (ha c hc1).2
      · intro p hp hno
        obtain ⟨c, hc1, hc2, hc3⟩ := contiguous_cover spans 0 p hc (Nat.zero_le _) (by omega)
        refine ⟨c, hc1, hc2, ?_⟩
        by_contra hlt
        have hnl := (ha c hc1).2 (by omega) (by omega)
        exact hno (c.stop - 1) (by omega) (by omega) hnl
    rcases splitAtNewlines_cases data n hd hn with h | ⟨size, k, h, _, _⟩
    · refine ⟨_, h, key _ (by simp [Contiguous]) (by simp [chainEnd]) ?_⟩
      intro c hc
      simp only [List.mem_singleton] at hc
      subst hc
      exact ⟨fun h0 => absurd h0 (Nat.lt_irrefl _), fun _ h1 => absurd h1 (Nat.lt_irrefl _)⟩
    · exact ⟨_, h, key _ (splitLoop_contiguous _ _ _ _) (splitLoop_chainEnd_ge _ _ _ _)
        (splitLoop_aligned _ _ _ _ (fun h0 => absurd h0 (Nat.lt_irrefl _)))⟩

/-- An instance: a buffer of two lines, the second without newline. -/
theorem splitAtNewlines_boundaries_after_newline_witness :
    ∃ spans, splitAtNewlines [97, 10, 98] 2 = some spans ∧
      (∀ b ∈ boundaries spans, 0 < b → b < [97, 10, (98 : Byte)].length →
        [97, 10, (98 : Byte)][b - 1]? = some NL) ∧
      (∀ p, p < [97, 10, (98 : Byte)].length →
        (∀ j, p ≤ j → j < [97, 10, (98 : Byte)].length → [97, 10, (98 : Byte)][j]? ≠ some NL) →
        ∃ c ∈ spans, c.start ≤ p ∧ [97, 10, (98 : Byte)].length ≤ c.stop) :=
  splitAtNewlines_boundaries_after_newline [97, 10, 98] 2 (by decide)

/-- C3: for every non-empty buffer and every `n >= 1` the splitter returns at
least one span and at most `n` spans, and for the empty buffer it returns no
span. -/
theorem splitAtNewlines_span_count (data : List Byte) (n : Int) (hn : 1 ≤ n) :
    ∃ spans, splitAtNewlines data n = some spans ∧
      (data ≠ [] → 1 ≤ spans.length ∧ (spans.length : Int) ≤ n) ∧
      (data = [] → spans = []) := by
  by_cases hd : data.length = 0
  · have : data = [] := List.length_eq_zero.mp hd
    subst this
    exact ⟨[], by simp [splitAtNewlines], by simp, by simp⟩
  · have hne : data ≠ [] := fun h => hd (by simp [h])
    rcases splitAtNewlines_cases data n hd hn with h | ⟨size, k, h, hk, _⟩
    · exact ⟨_, h, fun _ => ⟨by simp, by simp; omega⟩, fun h0 => absurd h0 hne⟩
    · refine ⟨_, h, fun _ => ⟨?_, ?_⟩, fun h0 => absurd h0 hne⟩
      · exact splitLoop_length_pos data size k 0 (Or.inl (by omega))
      · have := splitLoop_length_le data size k 0
        omega

/-- An instance of C3: three bytes split two ways. -/
theorem splitAtNewlines_span_count_witness :
    ∃ spans, splitAtNewlines [97, 10, 98] 2 = some spans ∧
      (([97, 10, 98] : List Byte) ≠ [] → 1 ≤ spans.length ∧ (spans.length : Int) ≤ 2) ∧
      (([97, 10, 98] : List Byte) = [] → spans = []) :=
  splitAtNewlines_span_count [97, 10, 98] 2 (by decide)

/-! ## The CSV writer -/

theorem needQuote_iff (f : List Byte) :
    needQuote f = true ↔ ∃ c ∈ f, c = COMMA ∨ c = QUOTE ∨ c = NL := by
  induction f with
  | nil => simp [needQuote]
  | cons c cs ih =>
    simp only [needQuote, List.mem_cons, exists_eq_or_imp]
    split
    · rename_i h; simp [h]
    · rename_i h; simp [h, ih]

theorem appendQuoted_eq (out f : List Byte) :
    appendQuoted out f = out ++ f.flatMap (fun c => if c = QUOTE then [QUOTE, QUOTE] else [c]) := by
  induction f generalizing out with
  | nil => simp [appendQuoted]
  | cons c cs ih =>
    simp only [appendQuoted, List.flatMap_cons]
    split <;> simp [ih]

theorem writeField_eq (out f : List Byte) : writeField out f = out ++ specEncodeField f := by
  unfold writeField specEncodeField
  by_cases h : needQuote f = true
  · rw [if_pos h, if_pos ((needQuote_iff f).mp h), appendQuoted_eq]
    simp
  · rw [if_neg h, if_neg (fun h1 => h ((needQuote_iff f).mpr h1))]

theorem writeLoop_eq (n i : Nat) (fs : List (List Byte)) (out : List Byte)
    (hn : n = i + fs.length) :
    writeLoop n i fs out = out ++ joinWith [COMMA] (fs.map specEncodeField) := by
  induction fs generalizing i out with
  | nil => simp [writeLoop, joinWith]
  | cons f fs ih =>
    simp only [writeLoop, writeField_eq]
    cases fs with
    | nil =>
      have : ¬ ((i : Int) < (n : Int) - 1) := by simp at hn; omega
      simp [this, writeLoop, joinWith]
    | cons g gs =>
      have : (i : Int) < (n : Int) - 1 := by simp at hn; omega
      rw [if_pos this, ih (i + 1) _ (by simp at hn ⊢; omega)]
      simp [joinWith]

/-- The writer appends to its prefix: its output on `out` is `out` followed by
its output on the empty prefix. -/
theorem writeCSVLine_append (out : List Byte) (fields : List (List Byte)) :
    writeCSVLine out fields = out ++ writeCSVLine [] fields := by
  unfold writeCSVLine
  rw [writeLoop_eq _ 0 fields out (by simp), writeLoop_eq _ 0 fields [] (by simp)]
  simp

theorem writeCSVLine_unfold (out : List Byte) (fields : List (List Byte)) :
    writeCSVLine out fields = out ++ joinWith [COMMA] (fields.map specEncodeField) ++ [NL] := by
  unfold writeCSVLine
  rw [writeLoop_eq _ 0 fields out (by simp)]

/-- C7: for every prefix `out` and every field sequence, `writeCSVLine` returns
`out`, then the fields in their order joined with commas, then one newline,
each field wrapped in quotes with its quotes doubled exactly when it holds a
comma, a quote or a newline byte and verbatim otherwise. -/
theorem writeCSVLine_eq_spec (out : List Byte) (fields : List (List Byte)) :
    writeCSVLine out fields = specWriteLine out fields := by
  unfold writeCSVLine specWriteLine
  rw [writeLoop_eq _ 0 fields out (by simp)]

/-! ## The CSV tokenizer -/

theorem cutAt_length (line : List Byte) (s : Nat) (ps : List Nat) :
    (cutAt line s ps).length = 1 + ps.length := by
  induction ps generalizing s with
  | nil => simp [cutAt]
  | cons p ps ih => simp [cutAt, ih]; omega

theorem parseLoop_eq_cutAt (line pre rest : List Byte) (start : Nat) (q : Bool)
    (hline : line = pre ++ rest) (hq : q = decide (pre.count QUOTE % 2 = 1)) :
    (parseLoop rest pre.length start q).map (fun r => slice line r.1 r.2) =
      cutAt line start ((List.range' pre.length rest.length).filter (isSplitPoint line)) := by
  induction rest generalizing pre start q with
  | nil =>
    subst hline
    simp [parseLoop, cutAt]
  | cons c cs ih =>
    have hline2 : line = (pre ++ [c]) ++ cs := by simp [hline]
    have hget : (line)[pre.length]? = some c := by
      rw [hline, List.getElem?_append_right (Nat.le_refl _)]
      simp
    have hcnt : quotesBefore line pre.length = pre.count QUOTE := by
      simp [quotesBefore, hline]
    have hlen : (pre ++ [c]).length = pre.length + 1 := by simp
    have hr : List.range' pre.length (c :: cs).length = pre.length :: List.range' (pre.length + 1) cs.length := by
      simp [List.range'_succ]
    rw [hr, List.filter_cons]
    simp only [parseLoop]
    by_cases h1 : c = QUOTE
    · have hsp : isSplitPoint line pre.length = false := by
        simp only [isSplitPoint, hget, h1]
        have : ¬ (QUOTE = COMMA) := by decide
        simp [this]
      rw [if_pos h1, hsp]
      have := ih (pre ++ [c]) start (!q) hline2
        (by
          subst hq; subst h1
          have hc1 : (pre ++ [QUOTE]).count QUOTE = pre.count QUOTE + 1 := by
            simp [List.count_append]
          rw [hc1]
          rcases Nat.mod_two_eq_zero_or_one (pre.count QUOTE) with h | h
          · have h' : (pre.count QUOTE + 1) % 2 = 1 := by omega
            simp [h, h']
          · have h' : (pre.count QUOTE + 1) % 2 = 0 := by omega
            simp [h, h'])
      rw [hlen] at this
      simpa using this
    · rw [if_neg h1]
      have hcount : (pre ++ [c]).count QUOTE = pre.count QUOTE := by
        have : ¬ (c == QUOTE) = true := by simpa using h1
        simp [List.count_append, List.count_cons, this]
      by_cases h2 : c = COMMA ∧ q = false
      · have hsp : isSplitPoint line pre.length = true := by
          have hq2 := h2.2
          rw [hq] at hq2
          simp only [isSplitPoint, hget, h2.1, hcnt]
          simp at hq2 ⊢
          omega
        rw [if_pos h2, hsp]
        have := ih (pre ++ [c]) (pre.length + 1) q hline2 (by rw [hcount]; exact hq)
        rw [hlen] at this
        simp only [List.map_cons, if_true, cutAt]
        rw [this]
      · have hsp : isSplitPoint line pre.length = false := by
          simp only [isSplitPoint, hget, hcnt]
          by_cases h3 : c = COMMA
          · have hq3 : q = true := by
              cases q with
              | true => rfl
              | false => exact absurd ⟨h3, rfl⟩ h2
            rw [hq] at hq3
            simp at hq3
            simp [h3]; omega
          · simp [h3]
        rw [if_neg h2, hsp]
        have := ih (pre ++ [c]) start q hline2 (by rw [hcount]; exact hq)
        rw [hlen] at this
        simpa using this

theorem parseCSVLine_eq_spec (line : List Byte) : parseCSVLine line [] = specParseLine line := by
  unfold parseCSVLine parseCSVRanges specParseLine splitPoints
  have := parseLoop_eq_cutAt line [] line 0 false rfl (by simp)
  simp only [List.length_nil] at this
  rw [List.nil_append, this, List.range_eq_range']

theorem mem_splitPoints (line : List Byte) (i : Nat) :
    i ∈ splitPoints line ↔
      i < line.length ∧ (line)[i]? = some COMMA ∧ (line.take i).count QUOTE % 2 = 0 := by
  simp [splitPoints, isSplitPoint, quotesBefore]

/-- C8: for every line, `parseCSVLine(line, empty)` returns the segments of the
line cut at the commas that are preceded by an even number of quote bytes
(the split points, in increasing order), quote bytes retained; there are
`1 + k` fields for `k` split points, the last one running from the last split
point to the end of the line, so the empty line yields one empty field. -/
theorem parseCSVLine_splits_outside_quotes (line : List Byte) :
    parseCSVLine line [] = cutAt line 0 (splitPoints line) ∧
    (parseCSVLine line []).length = 1 + (splitPoints line).length ∧
    (∀ i, i ∈ splitPoints line ↔
      i < line.length ∧ (line)[i]? = some COMMA ∧ (line.take i).count QUOTE % 2 = 0) ∧
    List.Sorted (· < ·) (splitPoints line) ∧
    parseCSVLine [] [] = [[]] := by
  refine ⟨parseCSVLine_eq_spec line, ?_, mem_splitPoints line, ?_, by decide⟩
  · rw [parseCSVLine_eq_spec, specParseLine, cutAt_length]
  · unfold splitPoints
    exact List.Sorted.filter _ (List.sorted_lt_range _)

/-! ## Tokenizing what the writer wrote -/

theorem parseLoop_plain (l rest : List Byte) (i start : Nat) (q : Bool)
    (h : ∀ c ∈ l, c ≠ COMMA ∧ c ≠ QUOTE) :
    parseLoop (l ++ rest) i start q = parseLoop rest (i + l.length) start q := by
  induction l generalizing i with
  | nil => simp
  | cons c cs ih =>
    have hc := h c (List.mem_cons_self _ _)
    simp only [List.cons_append, parseLoop, hc.1, hc.2, if_false, false_and, List.length_cons,
      List.append_eq]
    rw [ih (i + 1) (fun x hx => h x (List.mem_cons_of_mem _ hx))]
    congr 1; omega

theorem parseLoop_quoted_body (f rest : List Byte) (i start : Nat) :
    parseLoop (f.flatMap (fun c => if c = QUOTE then [QUOTE, QUOTE] else [c]) ++ rest) i start true =
      parseLoop rest (i + (f.flatMap (fun c => if c = QUOTE then [QUOTE, QUOTE] else [c])).length)
        start true := by
  induction f generalizing i with
  | nil => simp
  | cons c cs ih =>
    simp only [List.flatMap_cons, List.append_assoc, List.length_append]
    by_cases hc : c = QUOTE
    · simp only [hc, if_true, List.cons_append, List.nil_append, parseLoop, Bool.not_true,
        Bool.not_false, List.length_cons, List.length_nil]
      rw [ih (i + 1 + 1)]
      congr 1; omega
    · simp only [hc, if_false, List.cons_append, List.nil_append, parseLoop, List.length_cons,
        List.length_nil]
      have : ¬ (c = COMMA ∧ true = false) := by simp
      rw [if_neg this, ih (i + 1)]
      congr 1; omega

theorem parseLoop_quoted (f rest : List Byte) (i start : Nat) :
    parseLoop (QUOTE :: (f.flatMap (fun c => if c = QUOTE then [QUOTE, QUOTE] else [c])
      ++ (QUOTE :: rest))) i start false =
      parseLoop rest
        (i + (f.flatMap (fun c => if c = QUOTE then [QUOTE, QUOTE] else [c])).length + 2)
        start false := by
  rw [parseLoop, if_pos rfl, Bool.not_false, parseLoop_quoted_body, parseLoop, if_pos rfl,
    Bool.not_true]
  congr 1; omega

/-- The tokenizer, outside quotes before an encoded field, is outside quotes
after it and has cut nothing. -/
theorem parseLoop_encoded (f rest : List Byte) (i start : Nat) :
    parseLoop (specEncodeField f ++ rest) i start false =
      parseLoop rest (i + (specEncodeField f).length) start false := by
  unfold specEncodeField
  split
  · have e1 : [QUOTE] ++ f.flatMap (fun c => if c = QUOTE then [QUOTE, QUOTE] else [c]) ++ [QUOTE]
        ++ rest = QUOTE :: (f.flatMap (fun c => if c = QUOTE then [QUOTE, QUOTE] else [c])
          ++ (QUOTE :: rest)) := by simp
    have e2 : ([QUOTE] ++ f.flatMap (fun c => if c = QUOTE then [QUOTE, QUOTE] else [c])
        ++ [QUOTE]).length =
        (f.flatMap (fun c => if c = QUOTE then [QUOTE, QUOTE] else [c])).length + 2 := by
      simp
    rw [e1, e2, parseLoop_quoted, Nat.add_assoc]
  · rename_i h
    apply parseLoop_plain
    intro c hc
    constructor
    · intro h1; exact h ⟨c, hc, Or.inl h1⟩
    · intro h1; exact h ⟨c, hc, Or.inr (Or.inl h1)⟩

theorem slice_middle (pre e post : List Byte) :
    slice (pre ++ e ++ post) pre.length (pre.length + e.length) = e := by
  unfold slice
  rw [List.append_assoc, List.take_append, List.drop_left]
  simp

theorem parseLoop_join_encoded (fs : List (List Byte)) (hne : fs ≠ []) (line pre : List Byte)
    (hline : line = pre ++ joinWith [COMMA] (fs.map specEncodeField)) :
    (parseLoop (joinWith [COMMA] (fs.map specEncodeField)) pre.length pre.length false).map
        (fun r => slice line r.1 r.2) = fs.map specEncodeField := by
  induction fs generalizing pre with
  | nil => exact absurd rfl hne
  | cons f fs ih =>
    cases fs with
    | nil =>
      simp only [List.map_cons, List.map_nil, joinWith] at hline ⊢
      have := parseLoop_encoded f [] pre.length pre.length
      rw [List.append_nil] at this
      rw [this, parseLoop]
      simp only [List.map_cons, List.map_nil, List.cons.injEq, and_true]
      rw [hline]
      have := slice_middle pre (specEncodeField f) []
      rwa [List.append_nil] at this
    | cons g gs =>
      simp only [List.map_cons, joinWith] at hline ⊢
      have hq : ¬ (COMMA = QUOTE) := by decide
      rw [List.append_assoc, parseLoop_encoded, List.singleton_append, parseLoop, if_neg hq,
        if_pos ⟨rfl, rfl⟩]
      simp only [List.map_cons, List.cons.injEq]
      constructor
      · rw [hline]
        have := slice_middle pre (specEncodeField f)
          ([COMMA] ++ joinWith [COMMA] (specEncodeField g :: gs.map specEncodeField))
        simpa using this
      · have := ih (by simp) (pre ++ specEncodeField f ++ [COMMA])
          (by rw [hline]; simp)
        simp only [List.length_append, List.length_singleton, List.map_cons] at this
        exact this

/-- Tokenizing the line the writer wrote (its newline removed) yields the
writer's encodings of the fields, one for one. -/
theorem parse_write_eq_encoded (fields : List (List Byte)) (hne : fields ≠ []) :
    parseCSVLine (writeCSVLine [] fields).dropLast [] = fields.map specEncodeField := by
  have hw : (writeCSVLine [] fields).dropLast = joinWith [COMMA] (fields.map specEncodeField) := by
    rw [writeCSVLine_unfold]
    simp
  rw [hw]
  unfold parseCSVLine parseCSVRanges
  have := parseLoop_join_encoded fields hne _ [] rfl
  simpa using this

theorem length_le_doubled (f : List Byte) :
    f.length ≤ (f.flatMap (fun c => if c = QUOTE then [QUOTE, QUOTE] else [c])).length := by
  induction f with
  | nil => simp
  | cons c cs ih =>
    rw [List.flatMap_cons, List.length_append, List.length_cons]
    have : 1 ≤ (if c = QUOTE then [QUOTE, QUOTE] else [c]).length := by
      split <;> simp
    omega

theorem specEncodeField_eq_self_iff (f : List Byte) :
    specEncodeField f = f ↔ ∀ c ∈ f, c ≠ COMMA ∧ c ≠ QUOTE ∧ c ≠ NL := by
  unfold specEncodeField
  split
  · rename_i h
    constructor
    · intro he
      have hl := congrArg List.length he
      have := length_le_doubled f
      simp only [List.length_append, List.length_cons, List.length_nil] at hl
      omega
    · intro hall
      obtain ⟨c, hc, h3⟩ := h
      have := hall c hc
      rcases h3 with h3 | h3 | h3
      · exact absurd h3 this.1
      · exact absurd h3 this.2.1
      · exact absurd h3 this.2.2
  · rename_i h
    constructor
    · intro _ c hc
      refine ⟨fun h1 => h ⟨c, hc, Or.inl h1⟩, fun h1 => h ⟨c, hc, Or.inr (Or.inl h1)⟩,
        fun h1 => h ⟨c, hc, Or.inr (Or.inr h1)⟩⟩
    · intro _; rfl

theorem map_eq_self_iff (g : List Byte → List Byte) (fs : List (List Byte)) :
    fs.map g = fs ↔ ∀ f ∈ fs, g f = f := by
  induction fs with
  | nil => simp
  | cons f fs ih => simp [ih]

/-- C9 as stated fails: the field `a,b` holds no newline, the writer emits it
as `"a,b"`, and the tokenizer returns that quoted text, quotes included, not
the field; and the empty field sequence comes back as one empty field. -/
theorem roundtrip_fails_on_quoted_field :
    (∀ f ∈ [[97, 44, (98 : Byte)]], NL ∉ f) ∧
    parseCSVLine (writeCSVLine [] [[97, 44, 98]]).dropLast [] = [[34, 97, 44, 98, 34]] ∧
    parseCSVLine (writeCSVLine [] [[97, 44, 98]]).dropLast [] ≠ [[97, 44, 98]] ∧
    parseCSVLine (writeCSVLine [] []).dropLast [] = [[]] := by
  decide

/-- C9 (amended): for every non-empty field sequence, tokenizing the line the
writer wrote (its terminating newline removed) yields the original field
sequence exactly when no field holds a comma, a quote or a newline byte. -/
theorem roundtrip_iff_no_field_needs_quoting (fields : List (List Byte)) (hne : fields ≠ []) :
    parseCSVLine (writeCSVLine [] fields).dropLast [] = fields ↔
      ∀ f ∈ fields, ∀ c ∈ f, c ≠ COMMA ∧ c ≠ QUOTE ∧ c ≠ NL := by
  rw [parse_write_eq_encoded fields hne, map_eq_self_iff]
  constructor
  · intro h f hf
    exact (specEncodeField_eq_self_iff f).mp (h f hf)
  · intro h f hf
    exact (specEncodeField_eq_self_iff f).mpr (h f hf)

/-- An instance of the amended C9: the fields `a` and `b`. -/
theorem roundtrip_iff_no_field_needs_quoting_witness :
    parseCSVLine (writeCSVLine [] [[97], [98]]).dropLast [] = [[97], [98]] ↔
      ∀ f ∈ [[97], [(98 : Byte)]], ∀ c ∈ f, c ≠ COMMA ∧ c ≠ QUOTE ∧ c ≠ NL :=
  roundtrip_iff_no_field_needs_quoting [[97], [98]] (by decide)

/-! ## The chunk worker -/

theorem scanNewline_shift (l : List Byte) (e : Nat) : scanNewline l e = e + scanNewline l 0 := by
  induction l generalizing e with
  | nil => simp [scanNewline]
  | cons c cs ih =>
    simp only [scanNewline]
    split
    · rw [ih (e + 1), ih (0 + 1)]; omega
    · rfl

theorem scanNewline_zero_le (l : List Byte) : scanNewline l 0 ≤ l.length := by
  have := scanNewline_le l 0
  omega

theorem segments_ne_nil (l : List Byte) : segments l ≠ [] := by
  cases l with
  | nil => simp [segments]
  | cons c cs =>
    simp only [segments]
    split
    · simp
    · split <;> simp

/-- The first segment is the run of bytes before the first newline, and the
other segments are those of what follows that newline. -/
theorem segments_eq (l : List Byte) :
    segments l = l.take (scanNewline l 0) ::
      (if scanNewline l 0 < l.length then segments (l.drop (scanNewline l 0 + 1)) else []) := by
  induction l with
  | nil => simp [segments, scanNewline]
  | cons c cs ih =>
    by_cases hc : c = NL
    · simp [segments, scanNewline, hc]
    · have hk : scanNewline (c :: cs) 0 = scanNewline cs 0 + 1 := by
        simp only [scanNewline, ne_eq, hc, not_false_eq_true, if_true]
        rw [scanNewline_shift cs (0 + 1)]; omega
      rw [hk]
      simp only [segments, hc, if_false]
      rw [ih]
      simp

theorem stripCR_nil : stripCR [] = [] := by simp [stripCR]

theorem nonEmptyLines_nil : nonEmptyLines [] = [] := by
  simp [nonEmptyLines, segments, stripCR_nil]

/-- The kept lines of a buffer: its first line if that is kept, then the kept
lines of what follows the first newline. -/
theorem nonEmptyLines_eq (l : List Byte) :
    nonEmptyLines l =
      (if (stripCR (l.take (scanNewline l 0))).length > 0
        then [stripCR (l.take (scanNewline l 0))] else []) ++
        nonEmptyLines (l.drop (scanNewline l 0 + 1)) := by
  have hk := scanNewline_zero_le l
  have hfirst : ∀ s : List Byte, List.filter (fun s => decide (s ≠ [])) [s] =
      if s.length > 0 then [s] else [] := by
    intro s
    cases s <;> simp
  conv => lhs; rw [nonEmptyLines, segments_eq]
  by_cases hlt : scanNewline l 0 < l.length
  · rw [if_pos hlt, List.map_cons, List.filter_cons]
    rw [nonEmptyLines]
    have := hfirst (stripCR (l.take (scanNewline l 0)))
    simp only [List.filter_cons, List.filter_nil] at this
    split <;> rename_i h1
    · have h2 : (stripCR (l.take (scanNewline l 0))).length > 0 := by
        have : stripCR (l.take (scanNewline l 0)) ≠ [] := by simpa using h1
        exact List.length_pos.mpr this
      rw [if_pos h2]; rfl
    · have h2 : ¬ (stripCR (l.take (scanNewline l 0))).length > 0 := by
        have : stripCR (l.take (scanNewline l 0)) = [] := by simpa using h1
        simp [this]
      rw [if_neg h2]; rfl
  · rw [if_neg hlt]
    have hd : l.drop (scanNewline l 0 + 1) = [] := List.drop_eq_nil_of_le (by omega)
    rw [hd, nonEmptyLines_nil, List.append_nil, List.map_cons, List.map_nil]
    exact hfirst _

theorem slice_eq_take_drop (l : List Byte) (lo hi : Nat) :
    slice l lo hi = (l.drop lo).take (hi - lo) := by
  unfold slice
  rw [List.drop_take]

/-- The loop of `processChunk`, given fuel for the bytes that are left, appends
the spec's output for the kept lines from `pos` on and counts them. -/
theorem chunkLoop_eq (t : Transform) (chunk : List Byte) (fuel pos lineNum : Nat)
    (out : List Byte) (hf : chunk.length - pos ≤ fuel) :
    chunkLoop t chunk fuel pos lineNum out =
      (out ++ specChunkOut t lineNum (nonEmptyLines (chunk.drop pos)),
        lineNum + (nonEmptyLines (chunk.drop pos)).length) := by
  induction fuel generalizing pos lineNum out with
  | zero =>
    have hd : chunk.drop pos = [] := List.drop_eq_nil_of_le (by omega)
    simp [chunkLoop, hd, nonEmptyLines_nil, specChunkOut]
  | succ fuel ih =>
    by_cases hp : pos < chunk.length
    · have hsh := scanNewline_shift (chunk.drop pos) pos
      have hge := scanNewline_ge (chunk.drop pos) pos
      have hline : slice chunk pos (scanNewline (chunk.drop pos) pos) =
          (chunk.drop pos).take (scanNewline (chunk.drop pos) 0) := by
        rw [slice_eq_take_drop, hsh]
        congr 1; omega
      have hrest : chunk.drop (scanNewline (chunk.drop pos) pos + 1) =
          (chunk.drop pos).drop (scanNewline (chunk.drop pos) 0 + 1) := by
        rw [List.drop_drop, hsh]
        exact congrArg (fun m => List.drop m chunk) (by omega)
      rw [chunkLoop, if_pos hp]
      simp only
      rw [nonEmptyLines_eq (chunk.drop pos), ← hline, ← hrest]
      split <;> rename_i hl
      · rw [ih _ _ _ (by omega), writeCSVLine_append]
        simp [specChunkOut]
        omega
      · rw [ih _ _ _ (by omega)]
        simp
    · have hd : chunk.drop pos = [] := List.drop_eq_nil_of_le (by omega)
      rw [chunkLoop, if_neg hp]
      simp [hd, nonEmptyLines_nil, specChunkOut]

/-- For every chunk and every transform that is a function of the field
values, the output of `processChunk` is the concatenation, over the
newline-delimited segments of the chunk in order,
one trailing carriage return removed and the zero-length ones skipped, of
`writeCSVLine(transform(i, parseCSVLine(segment)))` with `i` counting the kept
segments from 0; the line count is the number of kept segments; the written
fields are whatever the transform returned.  On the chunk buffer this is
`processChunkMem_eq_spec`. -/
theorem processChunk_eq_spec (transform : Transform) (chunk : List Byte) (id : Nat) :
    (processChunk transform chunk id).data = specChunkOut transform 0 (nonEmptyLines chunk) ∧
    (processChunk transform chunk id).lines = (nonEmptyLines chunk).length ∧
    (processChunk transform chunk id).id = id := by
  unfold processChunk
  rw [chunkLoop_eq transform chunk chunk.length 0 0 [] (by omega)]
  simp

/-! ## Chunking and the kept lines -/

theorem segments_append_nl (x b : List Byte) :
    segments (x ++ NL :: b) = segments x ++ segments b := by
  induction x with
  | nil => simp [segments]
  | cons c cs ih =>
    simp only [List.cons_append, segments, List.append_eq]
    split
    · rw [ih]; simp
    · rw [ih]
      cases hs : segments cs with
      | nil => exact absurd hs (segments_ne_nil cs)
      | cons s ss => simp

theorem nonEmptyLines_append_nl (x b : List Byte) :
    nonEmptyLines (x ++ NL :: b) = nonEmptyLines x ++ nonEmptyLines b := by
  simp [nonEmptyLines, segments_append_nl]

/-- Cutting a buffer right after a newline byte, at its start or at its end
cuts no line: the kept lines of the whole are those of the two parts. -/
theorem nonEmptyLines_append (a b : List Byte)
    (h : a = [] ∨ b = [] ∨ a.getLast? = some NL) :
    nonEmptyLines (a ++ b) = nonEmptyLines a ++ nonEmptyLines b := by
  rcases h with h | h | h
  · subst h; simp [nonEmptyLines_nil]
  · subst h; simp [nonEmptyLines_nil]
  · obtain ⟨x, hx⟩ : ∃ x, a = x ++ [NL] := by
      rcases List.eq_nil_or_concat a with h0 | ⟨x, c, h0⟩
      · subst h0; simp at h
      · subst h0
        simp at h
        exact ⟨x, by rw [h]; simp⟩
    subst hx
    have e1 : x ++ [NL] ++ b = x ++ NL :: b := by simp
    have e2 : x ++ [NL] = x ++ NL :: [] := rfl
    rw [e1, nonEmptyLines_append_nl, e2, nonEmptyLines_append_nl, nonEmptyLines_nil]
    simp

/-! ## Spans that lie in the buffer -/

theorem copySpans_eq_some (data : List Byte) (spans : List span) (bufs : List (List Byte)) :
    copySpans data spans = some bufs ↔
      (∀ c ∈ spans, c.start ≤ c.stop ∧ c.stop ≤ data.length) ∧ bufs = spanBytes data spans := by
  induction spans generalizing bufs with
  | nil => simp [copySpans, spanBytes, eq_comm]
  | cons c cs ih =>
    simp only [copySpans, copySpan, spanBytes, List.map_cons, List.mem_cons, forall_eq_or_imp]
    by_cases hc : c.start ≤ c.stop ∧ c.stop ≤ data.length
    · rw [if_pos hc]
      simp only
      cases hcs : copySpans data cs with
      | none =>
        simp only [false_iff, reduceCtorEq]
        intro ⟨⟨_, h2⟩, _⟩
        have := (ih (spanBytes data cs)).mpr ⟨h2, rfl⟩
        rw [hcs] at this
        exact absurd this (by simp)
      | some bs =>
        have h1 := (ih bs).mp hcs
        simp only [Option.some.injEq]
        constructor
        · intro h; subst h
          exact ⟨⟨hc, h1.1⟩, by rw [h1.2]; rfl⟩
        · intro ⟨_, h⟩
          rw [h, h1.2]; rfl
    · rw [if_neg hc]
      simp only [false_iff, reduceCtorEq]
      intro ⟨⟨h, _⟩, _⟩
      exact hc h

theorem slice_append (data : List Byte) (s m e : Nat) (h1 : s ≤ m) (h2 : m ≤ e) :
    slice data s e = slice data s m ++ slice data m e := by
  simp only [slice_eq_take_drop]
  have e1 : e - s = (m - s) + (e - m) := by omega
  rw [e1, List.take_add, List.drop_drop]
  congr 3
  omega

theorem slice_zero_length (data : List Byte) : slice data 0 data.length = data := by
  simp [slice]

theorem chainEnd_ge (spans : List span) (s : Nat) (hc : Contiguous s spans)
    (h : ∀ c ∈ spans, c.start ≤ c.stop) : s ≤ chainEnd s spans := by
  induction spans generalizing s with
  | nil => simp [chainEnd]
  | cons c cs ih =>
    simp only [Contiguous] at hc
    simp only [chainEnd]
    have h1 := h c (List.mem_cons_self _ _)
    have h2 := ih c.stop hc.2 (fun d hd => h d (List.mem_cons_of_mem _ hd))
    omega

theorem chainEnd_le (spans : List span) (s n : Nat) (hs : s ≤ n)
    (h : ∀ c ∈ spans, c.stop ≤ n) : chainEnd s spans ≤ n := by
  induction spans generalizing s with
  | nil => simpa [chainEnd] using hs
  | cons c cs ih =>
    simp only [chainEnd]
    exact ih c.stop (h c (List.mem_cons_self _ _)) (fun d hd => h d (List.mem_cons_of_mem _ hd))

/-- Contiguous spans hold, one after the other, the bytes from their start to
their end. -/
theorem spanBytes_flatten (data : List Byte) (spans : List span) (s : Nat)
    (hc : Contiguous s spans) (h : ∀ c ∈ spans, c.start ≤ c.stop) :
    (spanBytes data spans).flatten = slice data s (chainEnd s spans) := by
  induction spans generalizing s with
  | nil => simp [spanBytes, chainEnd, slice_eq_take_drop]
  | cons c cs ih =>
    simp only [Contiguous] at hc
    have h1 := h c (List.mem_cons_self _ _)
    have h2 : ∀ d ∈ cs, d.start ≤ d.stop := fun d hd => h d (List.mem_cons_of_mem _ hd)
    have h3 := chainEnd_ge cs c.stop hc.2 h2
    have := ih c.stop hc.2 h2
    simp only [spanBytes] at this
    simp only [spanBytes, List.map_cons, List.flatten_cons, chainEnd]
    rw [this, slice_append data s c.stop _ (by omega) h3, hc.1]

theorem slice_length (data : List Byte) (s e : Nat) (h : e ≤ data.length) :
    (slice data s e).length = e - s := by
  simp [slice, Nat.min_eq_left h]

theorem slice_getElem? (data : List Byte) (s e k : Nat) (hk : k < e - s) :
    (slice data s e)[k]? = data[s + k]? := by
  rw [slice_eq_take_drop, List.getElem?_take_of_lt hk, List.getElem?_drop]

theorem slice_getLast? (data : List Byte) (s e : Nat) (h1 : s < e) (h2 : e ≤ data.length) :
    (slice data s e).getLast? = data[e - 1]? := by
  rw [List.getLast?_eq_getElem?, slice_length data s e h2, slice_getElem? data s e _ (by omega)]
  congr 1; omega

theorem slice_eq_nil (data : List Byte) (s e : Nat) (h : e ≤ s ∨ data.length ≤ s) :
    slice data s e = [] := by
  rw [slice_eq_take_drop]
  rcases h with h | h
  · have : e - s = 0 := by omega
    simp [this]
  · simp [List.drop_eq_nil_of_le h]

/-- The kept lines of the bytes covered by contiguous spans that lie in the
buffer and stop after a newline byte are the kept lines of the spans, one
span after the other. -/
theorem spanBytes_lines (data : List Byte) (spans : List span) (s : Nat)
    (hc : Contiguous s spans)
    (hin : ∀ c ∈ spans, c.start ≤ c.stop ∧ c.stop ≤ data.length)
    (hal : ∀ c ∈ spans, 0 < c.stop → c.stop < data.length → data[c.stop - 1]? = some NL) :
    nonEmptyLines (slice data s (chainEnd s spans)) =
      ((spanBytes data spans).map nonEmptyLines).flatten := by
  induction spans generalizing s with
  | nil => simp [spanBytes, chainEnd, slice_eq_nil, nonEmptyLines_nil]
  | cons c cs ih =>
    simp only [Contiguous] at hc
    have h1 := hin c (List.mem_cons_self _ _)
    have hin2 : ∀ d ∈ cs, d.start ≤ d.stop ∧ d.stop ≤ data.length :=
      fun d hd => hin d (List.mem_cons_of_mem _ hd)
    have h3 := chainEnd_ge cs c.stop hc.2 (fun d hd => (hin2 d hd).1)
    have h4 := chainEnd_le cs c.stop data.length h1.2 (fun d hd => (hin2 d hd).2)
    have := ih c.stop hc.2 hin2 (fun d hd => hal d (List.mem_cons_of_mem _ hd))
    simp only [spanBytes] at this
    simp only [spanBytes, List.map_cons, List.flatten_cons, chainEnd]
    rw [← this, slice_append data s c.stop _ (by omega) h3, ← hc.1]
    apply nonEmptyLines_append
    by_cases ha : c.stop ≤ c.start
    · exact Or.inl (slice_eq_nil _ _ _ (Or.inl ha))
    · by_cases hb : data.length ≤ c.stop
      · exact Or.inr (Or.inl (slice_eq_nil _ _ _ (Or.inr hb)))
      · refine Or.inr (Or.inr ?_)
        rw [slice_getLast? data c.start c.stop (by omega) h1.2]
        exact hal c (List.mem_cons_self _ _) (by omega) (by omega)

/-- What holds of the spans of the splitter for every buffer and `n >= 1`. -/
theorem splitAtNewlines_facts (data : List Byte) (n : Int) (spans : List span) (hn : 1 ≤ n)
    (h : splitAtNewlines data n = some spans) :
    Contiguous 0 spans ∧ data.length ≤ chainEnd 0 spans ∧
    (∀ c ∈ spans, c.start ≤ c.stop) ∧
    (∀ c ∈ spans, 0 < c.stop → c.stop < data.length → data[c.stop - 1]? = some NL) := by
  by_cases hd : data.length = 0
  · have : spans = [] := by
      simp only [splitAtNewlines, hd, if_true, Option.some.injEq] at h
      exact h.symm
    subst this
    simp [Contiguous, chainEnd, hd]
  · rcases splitAtNewlines_cases data n hd hn with h1 | ⟨size, k, h1, _, _⟩
    · rw [h1] at h
      simp only [Option.some.injEq] at h
      subst h
      simp [Contiguous, chainEnd]
    · rw [h1] at h
      simp only [Option.some.injEq] at h
      subst h
      exact ⟨splitLoop_contiguous _ _ _ _, splitLoop_chainEnd_ge _ _ _ _,
        splitLoop_start_le_stop _ _ _ _,
        fun c hc => (splitLoop_aligned _ _ _ _ (fun h0 => absurd h0 (Nat.lt_irrefl _)) c hc).2⟩

/-! ## The goroutines and the result array -/

theorem runWorkers_length (w : List Byte → Nat → chunkResult) (bufs : List (List Byte))
    (ord : List Nat) (st : Stats × List (Option chunkResult)) :
    (runWorkers w bufs ord st).2.length = st.2.length := by
  induction ord generalizing st with
  | nil => rfl
  | cons id rest ih =>
    simp only [runWorkers]
    split
    · exact ih st
    · rw [ih]; simp

/-- Slot `i` of the result array after the goroutines in `ord` have completed:
the result of worker `i` if it is among them, untouched otherwise. -/
theorem runWorkers_getElem? (w : List Byte → Nat → chunkResult) (bufs : List (List Byte))
    (ord : List Nat) (st : Stats × List (Option chunkResult))
    (hlen : st.2.length = bufs.length) (i : Nat) :
    (runWorkers w bufs ord st).2[i]? =
      if i ∈ ord ∧ i < bufs.length then (bufs[i]?).map (fun b => some (w b i)) else st.2[i]? := by
  induction ord generalizing st with
  | nil => simp [runWorkers]
  | cons id rest ih =>
    simp only [runWorkers]
    cases hb : bufs.get? id with
    | none =>
      have hid : bufs.length ≤ id := by
        rw [List.get?_eq_getElem?] at hb
        exact List.getElem?_eq_none_iff.mp hb
      simp only
      rw [ih st hlen]
      have : (i ∈ id :: rest ∧ i < bufs.length) ↔ (i ∈ rest ∧ i < bufs.length) := by
        simp only [List.mem_cons]
        constructor
        · rintro ⟨h1 | h1, h2⟩
          · omega
          · exact ⟨h1, h2⟩
        · rintro ⟨h1, h2⟩
          exact ⟨Or.inr h1, h2⟩
      simp only [this]
    | some buf =>
      rw [List.get?_eq_getElem?] at hb
      have hid : id < bufs.length := by
        by_contra hcon
        rw [List.getElem?_eq_none_iff.mpr (by omega)] at hb
        exact absurd hb (by simp)
      simp only
      rw [ih _ (by simp [hlen])]
      by_cases h1 : i ∈ rest ∧ i < bufs.length
      · rw [if_pos h1, if_pos ⟨List.mem_cons_of_mem _ h1.1, h1.2⟩]
      · rw [if_neg h1]
        by_cases h2 : i = id
        · subst h2
          rw [if_pos ⟨List.mem_cons_self _ _, hid⟩, hb]
          simp [hlen, hid]
        · have : ¬ (i ∈ id :: rest ∧ i < bufs.length) := by
            simp only [List.mem_cons]
            rintro ⟨h3 | h3, h4⟩
            · exact h2 h3
            · exact h1 ⟨h3, h4⟩
          rw [if_neg this, List.getElem?_set_ne (Ne.symm h2)]

theorem resultsInOrder_getElem? (w : List Byte → Nat → chunkResult) (bufs : List (List Byte))
    (k i : Nat) :
    (resultsInOrder w k bufs)[i]? = (bufs[i]?).map (fun b => w b (k + i)) := by
  induction bufs generalizing k i with
  | nil => simp [resultsInOrder]
  | cons b bs ih =>
    cases i with
    | zero => simp [resultsInOrder]
    | succ i =>
      simp only [resultsInOrder, List.getElem?_cons_succ]
      rw [ih (k + 1) i]
      have : k + 1 + i = k + (i + 1) := by omega
      rw [this]

theorem resultsInOrder_length (w : List Byte → Nat → chunkResult) (bufs : List (List Byte))
    (k : Nat) : (resultsInOrder w k bufs).length = bufs.length := by
  induction bufs generalizing k with
  | nil => rfl
  | cons b bs ih => simp [resultsInOrder, ih]

/-- Once every goroutine has completed, in whatever order, the result array
holds the results in chunk-id order. -/
theorem runWorkers_results (w : List Byte → Nat → chunkResult) (bufs : List (List Byte))
    (ord : List Nat) (stats : Stats) (hp : ord.Perm (List.range bufs.length)) :
    (runWorkers w bufs ord (stats, List.replicate bufs.length none)).2 =
      (resultsInOrder w 0 bufs).map some := by
  apply List.ext_getElem?
  intro i
  rw [runWorkers_getElem? w bufs ord _ (by simp) i]
  have hmem : i ∈ ord ↔ i < bufs.length := by
    rw [hp.mem_iff, List.mem_range]
  rw [List.getElem?_map, resultsInOrder_getElem?]
  by_cases hi : i < bufs.length
  · rw [if_pos ⟨hmem.mpr hi, hi⟩]
    simp [List.getElem?_eq_getElem hi]
  · rw [if_neg (fun h => hi h.2)]
    simp [List.getElem?_eq_none_iff.mpr (Nat.le_of_not_lt hi), List.getElem?_replicate, hi]

/-- The lines a goroutine adds to the counter: the line count of its result. -/
theorem runWorkers_lines (w : List Byte → Nat → chunkResult) (bufs : List (List Byte))
    (ord : List Nat) (st : Stats × List (Option chunkResult)) :
    (runWorkers w bufs ord st).1.LinesProcessed % 2 ^ 64 =
      (st.1.LinesProcessed + (ord.map (fun id =>
        match bufs.get? id with
        | some b => (w b id).lines
        | none => 0)).sum) % 2 ^ 64 := by
  induction ord generalizing st with
  | nil => simp [runWorkers]
  | cons id rest ih =>
    simp only [runWorkers, List.map_cons, List.sum_cons]
    cases hb : bufs.get? id with
    | none =>
      simp only
      rw [ih st]
      simp
    | some buf =>
      simp only
      rw [ih]
      simp only [addChunkStats, add64]
      omega

theorem runWorkers_bytesRead (w : List Byte → Nat → chunkResult) (bufs : List (List Byte))
    (ord : List Nat) (st : Stats × List (Option chunkResult)) :
    (runWorkers w bufs ord st).1.BytesRead % 2 ^ 64 =
      (st.1.BytesRead + (ord.map (fun id =>
        match bufs.get? id with
        | some b => b.length
        | none => 0)).sum) % 2 ^ 64 := by
  induction ord generalizing st with
  | nil => simp [runWorkers]
  | cons id rest ih =>
    simp only [runWorkers, List.map_cons, List.sum_cons]
    cases hb : bufs.get? id with
    | none =>
      simp only
      rw [ih st]
      simp
    | some buf =>
      simp only
      rw [ih]
      simp only [addChunkStats, add64]
      omega

theorem runWorkers_bytesWritten (w : List Byte → Nat → chunkResult) (bufs : List (List Byte))
    (ord : List Nat) (st : Stats × List (Option chunkResult)) :
    (runWorkers w bufs ord st).1.BytesWritten = st.1.BytesWritten := by
  induction ord generalizing st with
  | nil => rfl
  | cons id rest ih =>
    simp only [runWorkers]
    split
    · exact ih st
    · rw [ih]; rfl

theorem range_map_results (w : List Byte → Nat → chunkResult) (bufs : List (List Byte))
    (g : chunkResult → Nat) :
    (List.range bufs.length).map (fun id =>
        match bufs.get? id with
        | some b => g (w b id)
        | none => 0) = (resultsInOrder w 0 bufs).map g := by
  apply List.ext_getElem?
  intro i
  rw [List.getElem?_map, List.getElem?_map, resultsInOrder_getElem?]
  by_cases hi : i < bufs.length
  · rw [List.getElem?_range hi]
    simp [List.getElem?_eq_getElem hi]
  · have h1 : (List.range bufs.length)[i]? = none :=
      List.getElem?_eq_none_iff.mpr (by simp; omega)
    have h2 : bufs[i]? = none := List.getElem?_eq_none_iff.mpr (by omega)
    simp [h1, h2]

theorem range_map_lengths (bufs : List (List Byte)) :
    (List.range bufs.length).map (fun id =>
        match bufs.get? id with
        | some b => b.length
        | none => 0) = bufs.map List.length := by
  apply List.ext_getElem?
  intro i
  rw [List.getElem?_map, List.getElem?_map]
  by_cases hi : i < bufs.length
  · rw [List.getElem?_range hi]
    simp [List.getElem?_eq_getElem hi]
  · have h1 : (List.range bufs.length)[i]? = none :=
      List.getElem?_eq_none_iff.mpr (by simp; omega)
    have h2 : bufs[i]? = none := List.getElem?_eq_none_iff.mpr (by omega)
    simp [h1, h2]

/-- The final loop writes the results in the order of the array and adds
their lengths to `BytesWritten`; the other counters stay. -/
theorem writeResults_eq (rs : List chunkResult) (acc : List Byte × Stats) :
    (writeResults (rs.map some) acc).1 = acc.1 ++ (rs.map chunkResult.data).flatten ∧
    (writeResults (rs.map some) acc).2.BytesWritten % 2 ^ 64 =
      (acc.2.BytesWritten + ((rs.map chunkResult.data).flatten).length) % 2 ^ 64 ∧
    (writeResults (rs.map some) acc).2.LinesProcessed = acc.2.LinesProcessed ∧
    (writeResults (rs.map some) acc).2.BytesRead = acc.2.BytesRead := by
  induction rs generalizing acc with
  | nil => simp [writeResults]
  | cons r rs ih =>
    simp only [List.map_cons, writeResults, List.flatten_cons, List.length_append]
    obtain ⟨h1, h2, h3, h4⟩ := ih (acc.1 ++ r.data,
      { acc.2 with BytesWritten := add64 acc.2.BytesWritten r.data.length })
    refine ⟨by rw [h1]; simp, ?_, by rw [h3], by rw [h4]⟩
    rw [h2]
    simp only [add64]
    omega

theorem runWorkers_lines_lt (w : List Byte → Nat → chunkResult) (bufs : List (List Byte))
    (ord : List Nat) (st : Stats × List (Option chunkResult))
    (h : st.1.LinesProcessed < 2 ^ 64) :
    (runWorkers w bufs ord st).1.LinesProcessed < 2 ^ 64 := by
  induction ord generalizing st with
  | nil => exact h
  | cons id rest ih =>
    simp only [runWorkers]
    split
    · exact ih st h
    · apply ih
      simp only [addChunkStats, add64]
      omega

theorem processChunk_lines (t : Transform) (chunk : List Byte) (id : Nat) :
    (processChunk t chunk id).lines = (nonEmptyLines chunk).length := by
  unfold processChunk
  rw [chunkLoop_eq t chunk chunk.length 0 0 [] (by omega)]
  simp

theorem processChunk_data (t : Transform) (chunk : List Byte) (id : Nat) :
    (processChunk t chunk id).data = specChunkOut t 0 (nonEmptyLines chunk) := by
  unfold processChunk
  rw [chunkLoop_eq t chunk chunk.length 0 0 [] (by omega)]
  simp

theorem resultsInOrder_lines_sum (t : Transform) (bufs : List (List Byte)) (k : Nat) :
    ((resultsInOrder (processChunk t) k bufs).map chunkResult.lines).sum =
      ((bufs.map nonEmptyLines).flatten).length := by
  induction bufs generalizing k with
  | nil => simp [resultsInOrder]
  | cons b bs ih =>
    simp only [resultsInOrder, List.map_cons, List.sum_cons, List.flatten_cons,
      List.length_append, processChunk_lines]
    rw [ih (k + 1)]

theorem segments_bytes (l : List Byte) :
    ((segments l).map List.length).sum + (segments l).length = l.length + 1 := by
  induction l with
  | nil => simp [segments]
  | cons c cs ih =>
    simp only [segments]
    split
    · simp only [List.map_cons, List.sum_cons, List.length_cons, List.length_nil]
      omega
    · cases hs : segments cs with
      | nil => exact absurd hs (segments_ne_nil cs)
      | cons s ss =>
        rw [hs] at ih
        simp only [List.map_cons, List.sum_cons, List.length_cons] at ih ⊢
        omega

theorem stripCR_length_le (s : List Byte) : (stripCR s).length ≤ s.length := by
  unfold stripCR
  split
  · simp
  · exact Nat.le_refl _

theorem kept_le_bytes (ss : List (List Byte)) :
    ((ss.map stripCR).filter (fun s => decide (s ≠ []))).length + ss.length ≤
      (ss.map List.length).sum + ss.length := by
  induction ss with
  | nil => simp
  | cons s ss ih =>
    simp only [List.map_cons, List.filter_cons, List.sum_cons, List.length_cons]
    have h1 := stripCR_length_le s
    split
    · rename_i h
      have : stripCR s ≠ [] := by simpa using h
      have := List.length_pos.mpr this
      simp only [List.length_cons]
      omega
    · omega

/-- There are no more kept lines than bytes. -/
theorem nonEmptyLines_length_le (l : List Byte) : (nonEmptyLines l).length ≤ l.length := by
  have h1 := segments_bytes l
  have h2 := kept_le_bytes (segments l)
  have h3 : 0 < (segments l).length := List.length_pos.mpr (segments_ne_nil l)
  unfold nonEmptyLines
  omega

/-! ## The dispatcher -/

/-- When every span lies in the buffer and `os.Create` succeeds, `Process`
returns `nil`, whatever the completion order of the goroutines: the output
file holds the outputs of the workers in chunk-id order, `BytesWritten` has
grown by its length and `LinesProcessed` by the line counts of the workers. -/
theorem ProcessWith_in_range (w : List Byte → Nat → chunkResult) (stats : Stats)
    (data : List Byte) (n : Int) (order : List Nat) (spans : List span)
    (hd : data.length ≠ 0) (hs : splitAtNewlines data n = some spans)
    (hin : ∀ c ∈ spans, c.start ≤ c.stop ∧ c.stop ≤ data.length)
    (hp : order.Perm (List.range spans.length)) :
    ∃ st, ProcessWith w stats data n order true =
        Outcome.ok (some (concatOutputs w (spanBytes data spans))) st ∧
      st.BytesWritten % 2 ^ 64 =
        (stats.BytesWritten + (concatOutputs w (spanBytes data spans)).length) % 2 ^ 64 ∧
      st.LinesProcessed % 2 ^ 64 = (stats.LinesProcessed +
        ((resultsInOrder w 0 (spanBytes data spans)).map chunkResult.lines).sum) % 2 ^ 64 ∧
      (stats.LinesProcessed < 2 ^ 64 → st.LinesProcessed < 2 ^ 64) := by
  have hcopy : copySpans data spans = some (spanBytes data spans) :=
    (copySpans_eq_some data spans _).mpr ⟨hin, rfl⟩
  have hlen : (spanBytes data spans).length = spans.length := by simp [spanBytes]
  have hp2 : order.Perm (List.range (spanBytes data spans).length) := by rw [hlen]; exact hp
  have hres := runWorkers_results w (spanBytes data spans) order stats hp2
  rw [hlen] at hres
  have hl := runWorkers_lines w (spanBytes data spans) order
    (stats, List.replicate spans.length none)
  have hlt := runWorkers_lines_lt w (spanBytes data spans) order
    (stats, List.replicate spans.length none)
  have hbw := runWorkers_bytesWritten w (spanBytes data spans) order
    (stats, List.replicate spans.length none)
  have hsum : (order.map (fun id =>
        match (spanBytes data spans).get? id with
        | some b => (w b id).lines
        | none => 0)).sum =
      ((resultsInOrder w 0 (spanBytes data spans)).map chunkResult.lines).sum := by
    rw [← range_map_results w (spanBytes data spans) chunkResult.lines]
    exact (hp2.map _).sum_eq
  obtain ⟨w1, w2, w3, _⟩ := writeResults_eq (resultsInOrder w 0 (spanBytes data spans))
    ([], (runWorkers w (spanBytes data spans) order
      (stats, List.replicate spans.length none)).1)
  refine ⟨(writeResults ((resultsInOrder w 0 (spanBytes data spans)).map some)
    ([], (runWorkers w (spanBytes data spans) order
      (stats, List.replicate spans.length none)).1)).2, ?_, ?_, ?_, ?_⟩
  · unfold ProcessWith
    rw [if_neg hd, hs]
    simp only [hcopy, if_true, hres]
    rw [show (writeResults (List.map some (resultsInOrder w 0 (spanBytes data spans)))
        ([], (runWorkers w (spanBytes data spans) order
          (stats, List.replicate spans.length none)).1)).1 =
        concatOutputs w (spanBytes data spans) from by rw [w1]; rfl]
  · rw [w2, hbw]; rfl
  · rw [w3, hl, hsum]
  · intro h
    rw [w3]
    exact hlt h

/-- The spans of the splitter, when they all lie in the buffer, cover it
exactly and cut no line. -/
theorem splitAtNewlines_in_range (data : List Byte) (n : Int) (spans : List span) (hn : 1 ≤ n)
    (h : splitAtNewlines data n = some spans)
    (hin : ∀ c ∈ spans, c.start ≤ c.stop ∧ c.stop ≤ data.length) :
    chainEnd 0 spans = data.length ∧ (spanBytes data spans).flatten = data ∧
    ((spanBytes data spans).map nonEmptyLines).flatten = nonEmptyLines data := by
  obtain ⟨hc, hge, hle, hal⟩ := splitAtNewlines_facts data n spans hn h
  have hend : chainEnd 0 spans = data.length :=
    Nat.le_antisymm (chainEnd_le spans 0 _ (Nat.zero_le _) (fun c hc => (hin c hc).2)) hge
  refine ⟨hend, ?_, ?_⟩
  · rw [spanBytes_flatten data spans 0 hc hle, hend, slice_zero_length]
  · rw [← spanBytes_lines data spans 0 hc hin hal, hend, slice_zero_length]

/-- C4 (fails on the code): on the file of 3072 bytes `'a'` with three workers,
whatever the transform, the counters, the completion order and the result of
`os.Create`, `Process` panics on the slice `data[3072:4096]` of the second
span: nothing is written and `BytesWritten` does not grow. -/
theorem Process_panics_on_overrun (transform : Transform) (stats : Stats) (order : List Nat)
    (createOk : Bool) :
    Process transform stats (List.replicate 3072 97) 3 order createOk = Outcome.panic := by
  unfold Process ProcessWith
  rw [if_neg (by rw [List.length_replicate]; decide),
    splitAtNewlines_no_nl_3072 _ (List.length_replicate _ _) (replicate_a_no_nl _)]
  simp only [copySpans_overrun _ (List.length_replicate _ _)]

/-- For every input file, every worker count `n >= 1` and every transform that
is a function of the field values, after a call of `Process` on a fresh
processor that returns `nil`, whatever the completion
order of the goroutines, `LinesProcessed` is the number of non-empty lines of
the whole file (newline-delimited, one trailing carriage return removed), and
that number is the sum of the line counts of the chunks. -/
theorem Process_lines_processed (transform : Transform) (data : List Byte) (n : Int)
    (order : List Nat) (createOk : Bool) (out : Option (List Byte)) (st : Stats)
    (hn : 1 ≤ n) (hlen : data.length < 2 ^ 63)
    (hp : ∃ spans, splitAtNewlines data n = some spans ∧ order.Perm (List.range spans.length))
    (hok : Process transform ⟨0, 0, 0⟩ data n order createOk = Outcome.ok out st) :
    st.LinesProcessed = (nonEmptyLines data).length ∧
    ∃ spans, splitAtNewlines data n = some spans ∧
      ((resultsInOrder (processChunk transform) 0 (spanBytes data spans)).map
        chunkResult.lines).sum = (nonEmptyLines data).length := by
  obtain ⟨spans, hs, hperm⟩ := hp
  by_cases hd : data.length = 0
  · have hnil : data = [] := List.length_eq_zero.mp hd
    subst hnil
    have hsp : spans = [] := by
      simp only [splitAtNewlines, List.length_nil, if_true, Option.some.injEq] at hs
      exact hs.symm
    subst hsp
    simp only [Process, ProcessWith, List.length_nil, if_true, Outcome.ok.injEq] at hok
    refine ⟨?_, [], hs, ?_⟩
    · rw [← hok.2, nonEmptyLines_nil]; rfl
    · simp [spanBytes, resultsInOrder, nonEmptyLines_nil]
  · cases hcopy : copySpans data spans with
    | none =>
      simp only [Process, ProcessWith, if_neg hd, hs, hcopy] at hok
      exact absurd hok (by simp)
    | some bufs =>
      have hin := ((copySpans_eq_some data spans bufs).mp hcopy).1
      obtain ⟨_, _, hlines⟩ := splitAtNewlines_in_range data n spans hn hs hin
      have hsum := resultsInOrder_lines_sum transform (spanBytes data spans) 0
      rw [hlines] at hsum
      cases createOk with
      | false =>
        simp only [Process, ProcessWith, if_neg hd, hs, hcopy] at hok
        exact absurd hok (by simp)
      | true =>
        obtain ⟨st0, h0, _, hl, hlt⟩ := ProcessWith_in_range (processChunk transform)
          ⟨0, 0, 0⟩ data n order spans hd hs hin hperm
        rw [Process, h0] at hok
        simp only [Outcome.ok.injEq] at hok
        rw [← hok.2]
        have hb := nonEmptyLines_length_le data
        have h1 := hlt (by simp)
        rw [hsum] at hl
        simp only [Nat.zero_add] at hl
        refine ⟨?_, spans, hs, hsum⟩
        omega

/-- An instance: the file `a\nb\n`, two workers, the identity transform. -/
theorem Process_lines_processed_witness :
    (⟨2, 4, 4⟩ : Stats).LinesProcessed = (nonEmptyLines [97, 10, 98, 10]).length ∧
    ∃ spans, splitAtNewlines [97, 10, 98, 10] 2 = some spans ∧
      ((resultsInOrder (processChunk (fun _ f => f)) 0 (spanBytes [97, 10, 98, 10] spans)).map
        chunkResult.lines).sum = (nonEmptyLines [97, 10, 98, 10]).length :=
  Process_lines_processed (fun _ f => f) [97, 10, 98, 10] 2 [0] true
    (some [97, 10, 98, 10]) ⟨2, 4, 4⟩ (by decide) (by decide)
    ⟨[⟨0, 4⟩], by decide, List.Perm.refl _⟩ (by decide)

/-! ## The scenario of `TestCSVProcessor` -/

/-- A buffer of fewer than 1024 bytes is one span, whatever `n >= 1`. -/
theorem splitAtNewlines_small (data : List Byte) (n : Int) (hd : data.length ≠ 0) (hn : 1 ≤ n)
    (hs : data.length < 1024) : splitAtNewlines data n = some [⟨0, data.length⟩] := by
  unfold splitAtNewlines
  rw [if_neg hd, if_neg (by omega)]
  have h1 : Int.tdiv (data.length : Int) n = (data.length : Int) / n :=
    Int.tdiv_eq_ediv (by omega) (by omega)
  have h2 : (data.length : Int) / n ≤ (data.length : Int) := Int.ediv_le_self n (by omega)
  simp only
  rw [if_pos (by omega)]

/-- `Process` depends on the worker count only through the spans. -/
theorem ProcessWith_split_congr (w : List Byte → Nat → chunkResult) (stats : Stats)
    (data : List Byte) (n m : Int) (order : List Nat) (createOk : Bool)
    (h : splitAtNewlines data n = splitAtNewlines data m) :
    ProcessWith w stats data n order createOk = ProcessWith w stats data m order createOk := by
  unfold ProcessWith
  rw [h]

theorem testInput_length : testInput.length = 44 := by decide

theorem testInput_split (n : Int) (hn : 1 ≤ n) :
    splitAtNewlines testInput n = splitAtNewlines testInput 1 := by
  rw [splitAtNewlines_small testInput n (by rw [testInput_length]; decide) hn
      (by rw [testInput_length]; decide),
    splitAtNewlines_small testInput 1 (by rw [testInput_length]; decide) (by decide)
      (by rw [testInput_length]; decide)]

/-- C10 (fails on the code): on the input of the scenario, with the transform
that appends `_mod` to `fields[1]` by Go's `append`, for every worker count
`n >= 1`, `Process` returns `nil` with `LinesProcessed = 4` and writes four
lines, but line 0 is `id,name_mod,modue`, not `id,name_mod,value`: the
appended bytes are written into the chunk buffer over the start of the next
field.  The transform taken as a function of values gives the output the
claim describes. -/
theorem test_scenario_clobbers_next_field (n : Int) (hn : 1 ≤ n) :
    ProcessMem (appendToSecondMem (bytes "_mod")) ⟨0, 0, 0⟩ testInput n [0] true =
      Outcome.ok
        (some (bytes "id,name_mod,modue\n1,foo_mod,mod\n2,bar_mod,mod\n3,baz_mod,mod\n"))
        ⟨4, 44, 60⟩ ∧
    Process (appendToSecond (bytes "_mod")) ⟨0, 0, 0⟩ testInput n [0] true =
      Outcome.ok
        (some (bytes "id,name_mod,value\n1,foo_mod,100\n2,bar_mod,200\n3,baz_mod,300\n"))
        ⟨4, 44, 60⟩ := by
  constructor
  · rw [ProcessMem, ProcessWith_split_congr _ _ _ n 1 _ _ (testInput_split n hn)]
    decide
  · rw [Process, ProcessWith_split_congr _ _ _ n 1 _ _ (testInput_split n hn)]
    decide

/-- An instance of the evaluation for C10: eight workers. -/
theorem test_scenario_clobbers_next_field_witness :
    ProcessMem (appendToSecondMem (bytes "_mod")) ⟨0, 0, 0⟩ testInput 8 [0] true =
      Outcome.ok
        (some (bytes "id,name_mod,modue\n1,foo_mod,mod\n2,bar_mod,mod\n3,baz_mod,mod\n"))
        ⟨4, 44, 60⟩ ∧
    Process (appendToSecond (bytes "_mod")) ⟨0, 0, 0⟩ testInput 8 [0] true =
      Outcome.ok
        (some (bytes "id,name_mod,value\n1,foo_mod,100\n2,bar_mod,200\n3,baz_mod,300\n"))
        ⟨4, 44, 60⟩ :=
  test_scenario_clobbers_next_field 8 (by decide)

/-- The test of the repository itself appends `_modified`: the first append
overwrites the newline that ends line 0 and the start of line 1, and the
output is four lines of which only the last is a transformed input line. -/
theorem test_scenario_modified :
    processChunkMem (appendToSecondMem (bytes "_modified")) testInput 0 =
      ⟨0, bytes "id,name_modified,modif\nedfoo,100_modified\nmodified0\n3,baz_modified,300\n",
        4⟩ := by
  decide

/-! ## The worker on the buffer and the worker on values -/

theorem parseLoop_ranges (rest : List Byte) (i start : Nat) (q : Bool) (h : start ≤ i) :
    ∀ r ∈ parseLoop rest i start q, r.1 ≤ r.2 ∧ r.2 ≤ i + rest.length := by
  induction rest generalizing i start q with
  | nil =>
    intro r hr
    simp only [parseLoop, List.mem_singleton] at hr
    subst hr
    simpa using h
  | cons c cs ih =>
    intro r hr
    simp only [parseLoop] at hr
    simp only [List.length_cons]
    split at hr
    · have := ih (i + 1) start (!q) (by omega) r hr
      omega
    · split at hr
      · simp only [List.mem_cons] at hr
        rcases hr with hr | hr
        · subst hr; simp only; omega
        · have := ih (i + 1) (i + 1) q (Nat.le_refl _) r hr
          omega
      · have := ih (i + 1) start q (by omega) r hr
        omega

theorem slice_slice (data : List Byte) (p e a b : Nat) (h2 : b ≤ e - p) :
    slice (slice data p e) a b = slice data (p + a) (p + b) := by
  simp only [slice_eq_take_drop]
  rw [List.drop_take, List.take_take, List.drop_drop]
  have e1 : min (b - a) (e - p - a) = b - a := by omega
  have e2 : p + b - (p + a) = b - a := by omega
  rw [e1, e2]

theorem stripCR_slice (chunk : List Byte) (pos e : Nat) (he : e ≤ chunk.length) :
    stripCR (slice chunk pos e) =
      slice chunk pos (if e - pos > 0 ∧ chunk.get? (e - 1) = some CR then e - 1 else e) := by
  unfold stripCR
  rw [slice_length chunk pos e he, List.get?_eq_getElem?]
  by_cases hpos : e - pos > 0
  · rw [slice_getLast? chunk pos e (by omega) he]
    by_cases hcr : chunk[e - 1]? = some CR
    · rw [if_pos ⟨hpos, hcr⟩, if_pos ⟨hpos, hcr⟩]
      simp only [slice_eq_take_drop, List.dropLast_eq_take, List.length_take, List.length_drop,
        List.take_take]
      congr 1
      omega
    · rw [if_neg (fun h => hcr h.2), if_neg (fun h => hcr h.2)]
  · rw [if_neg (fun h => hpos h.1), if_neg (fun h => hpos h.1)]

/-- The field views cut on the buffer denote the fields cut on the line. -/
theorem views_bytes (chunk : List Byte) (pos e1 : Nat) (he : e1 ≤ chunk.length) :
    ((parseCSVRanges (slice chunk pos e1)).map
        (fun r => FieldRef.view (pos + r.1) (r.2 - r.1))).map (FieldRef.bytes chunk) =
      parseCSVLine (slice chunk pos e1) [] := by
  unfold parseCSVLine parseCSVRanges
  rw [List.nil_append, List.map_map]
  apply List.map_congr_left
  intro r hr
  have := parseLoop_ranges (slice chunk pos e1) 0 0 false (Nat.le_refl _) r hr
  rw [slice_length chunk pos e1 he] at this
  simp only [Function.comp, FieldRef.bytes]
  rw [slice_slice chunk pos e1 r.1 r.2 (by omega)]
  congr 1
  omega

theorem chunkLoopMem_lift (t : Transform) (chunk : List Byte) (fuel pos lineNum : Nat)
    (out : List Byte) :
    chunkLoopMem (liftTransform t) fuel chunk pos lineNum out =
      chunkLoop t chunk fuel pos lineNum out := by
  induction fuel generalizing pos lineNum out with
  | zero => rfl
  | succ fuel ih =>
    rw [chunkLoopMem, chunkLoop]
    by_cases hp : pos < chunk.length
    · rw [if_pos hp, if_pos hp]
      have hle : scanNewline (chunk.drop pos) pos ≤ chunk.length := by
        have := scanNewline_le (chunk.drop pos) pos
        simp only [List.length_drop] at this
        omega
      have hstrip := stripCR_slice chunk pos _ hle
      have he1 : (if scanNewline (chunk.drop pos) pos - pos > 0 ∧
          chunk.get? (scanNewline (chunk.drop pos) pos - 1) = some CR
          then scanNewline (chunk.drop pos) pos - 1 else scanNewline (chunk.drop pos) pos)
          ≤ chunk.length := by
        split <;> omega
      simp only
      rw [hstrip, slice_length chunk pos _ he1]
      by_cases hl : (if scanNewline (chunk.drop pos) pos - pos > 0 ∧
          chunk.get? (scanNewline (chunk.drop pos) pos - 1) = some CR
          then scanNewline (chunk.drop pos) pos - 1 else scanNewline (chunk.drop pos) pos) - pos > 0
      · rw [if_pos hl, if_pos hl]
        simp only [liftTransform]
        have hid : ∀ fs : List (List Byte),
            (fs.map FieldRef.owned).map (FieldRef.bytes chunk) = fs := by
          intro fs
          rw [List.map_map]
          have : (FieldRef.bytes chunk ∘ FieldRef.owned) = id := by
            funext x; rfl
          rw [this, List.map_id]
        rw [views_bytes chunk pos _ he1, hid, ih]
      · rw [if_neg hl, if_neg hl, ih]
    · rw [if_neg hp, if_neg hp]

/-- On the chunk buffer, a transform that is a function of the field values
and leaves the buffer alone gives the result of the worker on values. -/
theorem processChunkMem_lift (t : Transform) (chunk : List Byte) (id : Nat) :
    processChunkMem (liftTransform t) chunk id = processChunk t chunk id := by
  unfold processChunkMem processChunk
  rw [chunkLoopMem_lift]

/-! ## The offsets fit `int64` -/

theorem nextBoundary_le (data : List Byte) (size start : Nat) :
    nextBoundary data size start ≤ max (start + size) data.length := by
  unfold nextBoundary
  have := scanNewline_le (data.drop (start + size)) (start + size)
  simp only [List.length_drop] at this
  simp only
  split <;> omega

theorem splitLoop_stop_le (data : List Byte) (size k start : Nat) :
    ∀ c ∈ splitLoop data size k start, c.stop ≤ max start data.length + k * size := by
  induction k generalizing start with
  | zero =>
    simp only [splitLoop]
    split
    · intro c hc
      simp only [List.mem_singleton] at hc
      subst hc
      simp only; omega
    · simp
  | succ k ih =>
    intro c hc
    simp only [splitLoop, List.mem_cons] at hc
    have hb := nextBoundary_le data size start
    have hmul : (k + 1) * size = k * size + size := Nat.succ_mul k size
    rcases hc with hc | hc
    · subst hc
      simp only
      omega
    · have := ih _ c hc
      omega

/-- No offset of a span exceeds twice the length of the buffer, so for a
buffer of fewer than `2^62` bytes the `int64` additions of the splitter do not
wrap and the natural numbers of this embedding are the values of the code. -/
theorem splitAtNewlines_offsets_fit (data : List Byte) (n : Int) (spans : List span)
    (hn : 1 ≤ n) (hlen : data.length < 2 ^ 62) (h : splitAtNewlines data n = some spans) :
    ∀ c ∈ spans, c.start ≤ c.stop ∧ c.stop < 2 ^ 63 := by
  intro c hc
  refine ⟨(splitAtNewlines_facts data n spans hn h).2.2.1 c hc, ?_⟩
  unfold splitAtNewlines at h
  split at h
  · simp only [Option.some.injEq] at h
    subst h
    simp at hc
  · rw [if_neg (by omega)] at h
    simp only at h
    have h1 : Int.tdiv (data.length : Int) n = (data.length : Int) / n :=
      Int.tdiv_eq_ediv (by omega) (by omega)
    have h3 : (data.length : Int) / n * n ≤ (data.length : Int) :=
      Int.ediv_mul_le _ (by omega)
    have h4 : 0 ≤ (data.length : Int) / n := Int.ediv_nonneg (by omega) (by omega)
    split at h
    · simp only [Option.some.injEq] at h
      subst h
      simp only [List.mem_singleton] at hc
      subst hc
      simp only; omega
    · simp only [Option.some.injEq] at h
      subst h
      have hs := splitLoop_stop_le data _ _ 0 c hc
      rw [h1] at hs
      have hk : (((n - 1).toNat * ((data.length : Int) / n).toNat : Nat) : Int) ≤
          (data.length : Int) := by
        push_cast
        rw [Int.toNat_of_nonneg (by omega), Int.toNat_of_nonneg h4]
        nlinarith
      have hk2 : (n - 1).toNat * ((data.length : Int) / n).toNat ≤ data.length := by
        exact_mod_cast hk
      omega

/-! ## More on the dispatcher, the tokenizer and the worker -/

/-- C11 (fails on the code): on a zero-byte input, whatever the transform, the
counters, the worker count and the result `os.Create` would have, `Process`
returns `nil` and leaves the counters as they were, but it returns before
`os.Create`: no output file is created. -/
theorem Process_empty_creates_no_file (transform : Transform) (stats : Stats) (workers : Int)
    (order : List Nat) (createOk : Bool) :
    Process transform stats [] workers order createOk = Outcome.ok none stats ∧
    Process transform ⟨0, 0, 0⟩ [] workers order createOk ≠ Outcome.ok (some []) ⟨0, 0, 0⟩ := by
  constructor
  · simp [Process, ProcessWith]
  · simp [Process, ProcessWith]

theorem specQuoteField_eq (f : List Byte) (h : NL ∉ f) : specQuoteField f = specEncodeField f := by
  unfold specQuoteField specEncodeField
  have : (∃ c ∈ f, c = COMMA ∨ c = QUOTE) ↔ (∃ c ∈ f, c = COMMA ∨ c = QUOTE ∨ c = NL) := by
    constructor
    · rintro ⟨c, hc, h1 | h1⟩
      · exact ⟨c, hc, Or.inl h1⟩
      · exact ⟨c, hc, Or.inr (Or.inl h1)⟩
    · rintro ⟨c, hc, h1 | h1 | h1⟩
      · exact ⟨c, hc, Or.inl h1⟩
      · exact ⟨c, hc, Or.inr h1⟩
      · subst h1; exact absurd hc h
  simp only [this]

/-- C16: for every non-empty field sequence whose fields hold no newline byte,
tokenizing the writer's line (its terminating newline removed) returns as many
elements as there are fields, and the element of index `i` is the writer's
encoding of field `i`: the field verbatim if it has no comma and no quote, the
field in quotes with its quotes doubled otherwise. -/
theorem parse_write_fieldwise (fields : List (List Byte)) (hne : fields ≠ [])
    (hnl : ∀ f ∈ fields, NL ∉ f) :
    (parseCSVLine (writeCSVLine [] fields).dropLast []).length = fields.length ∧
    ∀ i (hi : i < fields.length),
      (parseCSVLine (writeCSVLine [] fields).dropLast [])[i]? = some (specQuoteField fields[i]) := by
  rw [parse_write_eq_encoded fields hne]
  refine ⟨by simp, ?_⟩
  intro i hi
  rw [List.getElem?_map, List.getElem?_eq_getElem hi]
  simp only [Option.map_some']
  rw [specQuoteField_eq _ (hnl _ (List.getElem_mem hi))]

/-- An instance of C16: the fields `a,b` and `c"d`. -/
theorem parse_write_fieldwise_witness :
    (parseCSVLine (writeCSVLine [] [[97, 44, 98], [99, 34, 100]]).dropLast []).length =
      [[97, 44, 98], [99, 34, (100 : Byte)]].length ∧
    ∀ i (hi : i < [[97, 44, 98], [99, 34, (100 : Byte)]].length),
      (parseCSVLine (writeCSVLine [] [[97, 44, 98], [99, 34, 100]]).dropLast [])[i]? =
        some (specQuoteField ([[97, 44, 98], [99, 34, (100 : Byte)]][i])) :=
  parse_write_fieldwise [[97, 44, 98], [99, 34, 100]] (by decide) (by decide)

theorem parseLoop_ne_nil (rest : List Byte) (i start : Nat) (q : Bool) :
    parseLoop rest i start q ≠ [] := by
  induction rest generalizing i start q with
  | nil => simp [parseLoop]
  | cons c cs ih =>
    simp only [parseLoop]
    split
    · exact ih _ _ _
    · split
      · simp
      · exact ih _ _ _

theorem joinWith_cons (sep x : List Byte) (xs : List (List Byte)) (h : xs ≠ []) :
    joinWith sep (x :: xs) = x ++ sep ++ joinWith sep xs := by
  cases xs with
  | nil => exact absurd rfl h
  | cons y ys => rfl

theorem slice_prefix (pre rest : List Byte) (start : Nat) :
    slice (pre ++ rest) start pre.length = pre.drop start := by
  simp [slice]

/-- Joining with commas what the tokenizer cuts from `start` on gives back the
bytes from `start` on. -/
theorem parseLoop_join (line pre rest : List Byte) (start : Nat) (q : Bool)
    (hline : line = pre ++ rest) (hs : start ≤ pre.length) :
    joinWith [COMMA] ((parseLoop rest pre.length start q).map (fun r => slice line r.1 r.2)) =
      line.drop start := by
  induction rest generalizing pre start q with
  | nil =>
    subst hline
    simp [parseLoop, joinWith, slice]
  | cons c cs ih =>
    have hline2 : line = (pre ++ [c]) ++ cs := by simp [hline]
    have hlen : (pre ++ [c]).length = pre.length + 1 := by simp
    simp only [parseLoop]
    split
    · have := ih (pre ++ [c]) start (!q) hline2 (by rw [hlen]; omega)
      rwa [hlen] at this
    · split
      · rename_i hq h
        have := ih (pre ++ [c]) (pre.length + 1) q hline2 (by rw [hlen])
        rw [hlen] at this
        rw [List.map_cons, joinWith_cons _ _ _ (by simpa using parseLoop_ne_nil _ _ _ _), this]
        simp only
        rw [hline, slice_prefix, List.drop_append_of_le_length hs, h.1]
        have : List.drop (pre.length + 1) (pre ++ COMMA :: cs) = cs := by
          rw [show pre.length + 1 = (pre ++ [COMMA]).length from by simp,
            show pre ++ COMMA :: cs = (pre ++ [COMMA]) ++ cs from by simp, List.drop_left]
        rw [this]
        simp
      · have := ih (pre ++ [c]) start q hline2 (by rw [hlen]; omega)
        rwa [hlen] at this

theorem parseCSVLine_join (line : List Byte) :
    joinWith [COMMA] (parseCSVLine line []) = line := by
  unfold parseCSVLine parseCSVRanges
  have := parseLoop_join line [] line 0 false rfl (Nat.le_refl _)
  simpa using this

/-- C19: for every line, `parseCSVLine(line, empty)` is non-empty and joining
its fields with commas reproduces the line byte for byte. -/
theorem parseCSVLine_join_reproduces (line : List Byte) :
    parseCSVLine line [] ≠ [] ∧ joinWith [COMMA] (parseCSVLine line []) = line := by
  refine ⟨?_, parseCSVLine_join line⟩
  unfold parseCSVLine parseCSVRanges
  simpa using parseLoop_ne_nil line 0 0 false

/-! ## Chunking is transparent -/

theorem stop_le_chainEnd (spans : List span) (s : Nat) (hc : Contiguous s spans)
    (h : ∀ c ∈ spans, c.start ≤ c.stop) : ∀ c ∈ spans, c.stop ≤ chainEnd s spans := by
  induction spans generalizing s with
  | nil => simp
  | cons d ds ih =>
    simp only [Contiguous] at hc
    have h2 : ∀ c ∈ ds, c.start ≤ c.stop := fun c hc => h c (List.mem_cons_of_mem _ hc)
    intro c hcm
    simp only [List.mem_cons] at hcm
    simp only [chainEnd]
    rcases hcm with hcm | hcm
    · subst hcm
      exact chainEnd_ge ds c.stop hc.2 h2
    · exact ih d.stop hc.2 h2 c hcm

theorem specChunkOut_append (t : Transform) (i : Nat) (a b : List (List Byte)) :
    specChunkOut t i (a ++ b) = specChunkOut t i a ++ specChunkOut t (i + a.length) b := by
  induction a generalizing i with
  | nil => simp [specChunkOut]
  | cons l ls ih =>
    have : i + 1 + ls.length = i + (ls.length + 1) := by omega
    rw [List.cons_append, specChunkOut, specChunkOut, ih (i + 1), List.length_cons, this,
      List.append_assoc]

theorem specChunkOut_index (t : Transform) (ht : ∀ i j fs, t i fs = t j fs) (i j : Nat)
    (ls : List (List Byte)) : specChunkOut t i ls = specChunkOut t j ls := by
  induction ls generalizing i j with
  | nil => rfl
  | cons l ls ih =>
    simp only [specChunkOut]
    rw [ht i j, ih (i + 1) (j + 1)]

theorem resultsInOrder_data_flatten (t : Transform) (ht : ∀ i j fs, t i fs = t j fs)
    (bufs : List (List Byte)) (k : Nat) :
    ((resultsInOrder (processChunk t) k bufs).map chunkResult.data).flatten =
      specChunkOut t 0 ((bufs.map nonEmptyLines).flatten) := by
  induction bufs generalizing k with
  | nil => simp [resultsInOrder, specChunkOut]
  | cons b bs ih =>
    simp only [resultsInOrder, List.map_cons, List.flatten_cons, processChunk_data]
    rw [ih (k + 1), specChunkOut_append,
      specChunkOut_index t ht (0 + (nonEmptyLines b).length) 0]

/-- For every buffer, every list of contiguous spans that covers the
buffer from 0 to its length and whose boundaries inside the buffer each come
right after a newline byte, and every transform that is a function of the
field values and ignores its line index,
the outputs of `processChunk` on the spans, concatenated in order, are the
output of `processChunk` on the whole buffer, and the line counts of the spans
add up to the line count of the whole buffer. -/
theorem chunking_transparent (t : Transform) (data : List Byte) (spans : List span)
    (ht : ∀ i j fs, t i fs = t j fs)
    (hc : Contiguous 0 spans) (hend : chainEnd 0 spans = data.length)
    (hle : ∀ c ∈ spans, c.start ≤ c.stop)
    (hal : ∀ c ∈ spans, 0 < c.stop → c.stop < data.length → data[c.stop - 1]? = some NL) :
    concatOutputs (processChunk t) (spanBytes data spans) = (processChunk t data 0).data ∧
    ((resultsInOrder (processChunk t) 0 (spanBytes data spans)).map chunkResult.lines).sum =
      (processChunk t data 0).lines := by
  have hin : ∀ c ∈ spans, c.start ≤ c.stop ∧ c.stop ≤ data.length := by
    intro c hcm
    refine ⟨hle c hcm, ?_⟩
    rw [← hend]
    exact stop_le_chainEnd spans 0 hc hle c hcm
  have hlines := spanBytes_lines data spans 0 hc hin hal
  rw [hend, slice_zero_length] at hlines
  constructor
  · unfold concatOutputs
    rw [resultsInOrder_data_flatten t ht, ← hlines, processChunk_data]
  · rw [resultsInOrder_lines_sum, ← hlines, processChunk_lines]

/-- An instance: the buffer `a\nb,c\nd` cut after each newline, the
identity transform. -/
theorem chunking_transparent_witness :
    concatOutputs (processChunk (fun _ fs => fs))
        (spanBytes [97, 10, 98, 44, 99, 10, 100] [⟨0, 2⟩, ⟨2, 6⟩, ⟨6, 7⟩]) =
      (processChunk (fun _ fs => fs) [97, 10, 98, 44, 99, 10, 100] 0).data ∧
    ((resultsInOrder (processChunk (fun _ fs => fs)) 0
        (spanBytes [97, 10, 98, 44, 99, 10, 100] [⟨0, 2⟩, ⟨2, 6⟩, ⟨6, 7⟩])).map
          chunkResult.lines).sum =
      (processChunk (fun _ fs => fs) [97, 10, 98, 44, 99, 10, 100] 0).lines :=
  chunking_transparent (fun _ fs => fs) [97, 10, 98, 44, 99, 10, 100] [⟨0, 2⟩, ⟨2, 6⟩, ⟨6, 7⟩]
    (fun _ _ _ => rfl) (by simp [Contiguous]) (by decide) (by decide) (by decide)

/-! ## The identity transform on quote-free lines -/

/-- The fields cut from a line without quotes and newlines hold no comma, no
quote and no newline. -/
theorem parseLoop_clean (line pre rest : List Byte) (start : Nat)
    (hline : line = pre ++ rest) (hs : start ≤ pre.length)
    (hrest : ∀ c ∈ rest, c ≠ QUOTE ∧ c ≠ NL)
    (hpre : ∀ c ∈ pre.drop start, c ≠ COMMA ∧ c ≠ QUOTE ∧ c ≠ NL) :
    ∀ f ∈ (parseLoop rest pre.length start false).map (fun r => slice line r.1 r.2),
      ∀ c ∈ f, c ≠ COMMA ∧ c ≠ QUOTE ∧ c ≠ NL := by
  induction rest generalizing pre start with
  | nil =>
    subst hline
    intro f hf
    simp only [parseLoop, List.map_cons, List.map_nil, List.mem_singleton] at hf
    subst hf
    simpa [slice] using hpre
  | cons c cs ih =>
    have hline2 : line = (pre ++ [c]) ++ cs := by simp [hline]
    have hlen : (pre ++ [c]).length = pre.length + 1 := by simp
    have hc := hrest c (List.mem_cons_self _ _)
    have hcs : ∀ x ∈ cs, x ≠ QUOTE ∧ x ≠ NL := fun x hx => hrest x (List.mem_cons_of_mem _ hx)
    simp only [parseLoop]
    rw [if_neg hc.1]
    by_cases hcomma : c = COMMA
    · rw [if_pos ⟨hcomma, trivial⟩]
      intro f hf
      simp only [List.map_cons, List.mem_cons] at hf
      rcases hf with hf | hf
      · subst hf
        rw [hline, slice_prefix]
        exact hpre
      · have := ih (pre ++ [c]) (pre.length + 1) hline2 (by rw [hlen]) hcs
          (by rw [← hlen, List.drop_length]; simp)
        rw [hlen] at this
        exact this f hf
    · rw [if_neg (fun h => hcomma h.1)]
      have := ih (pre ++ [c]) start hline2 (by rw [hlen]; omega) hcs
        (by
          rw [List.drop_append_of_le_length hs]
          intro x hx
          simp only [List.mem_append, List.mem_singleton] at hx
          rcases hx with hx | hx
          · exact hpre x hx
          · subst hx; exact ⟨hcomma, hc.1, hc.2⟩)
      rw [hlen] at this
      exact this

/-- The writer undoes the tokenizer on a line without quotes and newlines. -/
theorem write_parse_quote_free (l : List Byte) (h : ∀ c ∈ l, c ≠ QUOTE ∧ c ≠ NL) :
    writeCSVLine [] (parseCSVLine l []) = l ++ [NL] := by
  have hclean : ∀ f ∈ parseCSVLine l [], ∀ c ∈ f, c ≠ COMMA ∧ c ≠ QUOTE ∧ c ≠ NL := by
    have := parseLoop_clean l [] l 0 rfl (Nat.le_refl _) h (by simp)
    simpa [parseCSVLine, parseCSVRanges] using this
  have henc : (parseCSVLine l []).map specEncodeField = parseCSVLine l [] :=
    (map_eq_self_iff _ _).mpr (fun f hf => (specEncodeField_eq_self_iff f).mpr (hclean f hf))
  rw [writeCSVLine_unfold, henc, parseCSVLine_join]
  simp

theorem segments_no_nl (l : List Byte) (h : ∀ c ∈ l, c ≠ NL) : segments l = [l] := by
  induction l with
  | nil => rfl
  | cons c cs ih =>
    have hc := h c (List.mem_cons_self _ _)
    simp only [segments, hc, if_false]
    rw [ih (fun x hx => h x (List.mem_cons_of_mem _ hx))]

theorem stripCR_no_cr (l : List Byte) (h : ∀ c ∈ l, c ≠ CR) : stripCR l = l := by
  unfold stripCR
  split
  · rename_i hl
    have := List.mem_of_getLast?_eq_some hl.2
    exact absurd rfl (h CR this)
  · rfl

theorem nonEmptyLines_single (l : List Byte) (hne : l ≠ [])
    (h : ∀ c ∈ l, c ≠ NL ∧ c ≠ CR) : nonEmptyLines l = [l] := by
  unfold nonEmptyLines
  rw [segments_no_nl l (fun c hc => (h c hc).1)]
  simp [stripCR_no_cr l (fun c hc => (h c hc).2), hne]

theorem nonEmptyLines_terminated (ls : List (List Byte)) (hne : ∀ l ∈ ls, l ≠ [])
    (h : ∀ l ∈ ls, ∀ c ∈ l, c ≠ NL ∧ c ≠ CR) :
    nonEmptyLines ((ls.map (fun l => l ++ [NL])).flatten) = ls := by
  induction ls with
  | nil => simp [nonEmptyLines_nil]
  | cons l ls ih =>
    simp only [List.map_cons, List.flatten_cons, List.append_assoc, List.singleton_append]
    rw [nonEmptyLines_append_nl, nonEmptyLines_single l (hne l (List.mem_cons_self _ _))
      (h l (List.mem_cons_self _ _)),
      ih (fun x hx => hne x (List.mem_cons_of_mem _ hx))
        (fun x hx => h x (List.mem_cons_of_mem _ hx))]
    rfl

theorem specChunkOut_identity (ls : List (List Byte)) (i : Nat)
    (h : ∀ l ∈ ls, ∀ c ∈ l, c ≠ QUOTE ∧ c ≠ NL) :
    specChunkOut (fun _ fs => fs) i ls = (ls.map (fun l => l ++ [NL])).flatten := by
  induction ls generalizing i with
  | nil => rfl
  | cons l ls ih =>
    simp only [specChunkOut, List.map_cons, List.flatten_cons]
    rw [write_parse_quote_free l (h l (List.mem_cons_self _ _)),
      ih (i + 1) (fun x hx => h x (List.mem_cons_of_mem _ hx))]

theorem count_nl_terminated (ls : List (List Byte)) (h : ∀ l ∈ ls, ∀ c ∈ l, c ≠ NL) :
    ((ls.map (fun l => l ++ [NL])).flatten).count NL = ls.length := by
  induction ls with
  | nil => rfl
  | cons l ls ih =>
    simp only [List.map_cons, List.flatten_cons, List.count_append, List.length_cons]
    rw [ih (fun x hx => h x (List.mem_cons_of_mem _ hx))]
    have h0 : l.count NL = 0 :=
      List.count_eq_zero.mpr (fun hm => h l (List.mem_cons_self _ _) NL hm rfl)
    rw [h0]
    simp
    omega

/-- C20: for every chunk that consists of non-empty lines, each followed by a
newline byte, and that holds no quote and no carriage return, `processChunk`
with the identity transform returns the chunk byte for byte, and its line
count is the number of newline bytes of the chunk. -/
theorem processChunk_identity_quote_free (ls : List (List Byte)) (id : Nat)
    (hne : ∀ l ∈ ls, l ≠ [])
    (hclean : ∀ l ∈ ls, ∀ c ∈ l, c ≠ NL ∧ c ≠ QUOTE ∧ c ≠ CR) :
    (processChunk (fun _ fs => fs) ((ls.map (fun l => l ++ [NL])).flatten) id).data =
      (ls.map (fun l => l ++ [NL])).flatten ∧
    (processChunk (fun _ fs => fs) ((ls.map (fun l => l ++ [NL])).flatten) id).lines =
      ((ls.map (fun l => l ++ [NL])).flatten).count NL := by
  have hlines := nonEmptyLines_terminated ls hne
    (fun l hl c hc => ⟨(hclean l hl c hc).1, (hclean l hl c hc).2.2⟩)
  constructor
  · rw [processChunk_data, hlines]
    exact specChunkOut_identity ls 0 (fun l hl c hc => ⟨(hclean l hl c hc).2.1, (hclean l hl c hc).1⟩)
  · rw [processChunk_lines, hlines,
      count_nl_terminated ls (fun l hl c hc => (hclean l hl c hc).1)]

/-- An instance of C20: the chunk `a,b\nc\n`. -/
theorem processChunk_identity_quote_free_witness :
    (processChunk (fun _ fs => fs)
        (([[97, 44, 98], [99]] : List (List Byte)).map (fun l => l ++ [NL])).flatten 0).data =
      (([[97, 44, 98], [99]] : List (List Byte)).map (fun l => l ++ [NL])).flatten ∧
    (processChunk (fun _ fs => fs)
        (([[97, 44, 98], [99]] : List (List Byte)).map (fun l => l ++ [NL])).flatten 0).lines =
      ((([[97, 44, 98], [99]] : List (List Byte)).map (fun l => l ++ [NL])).flatten).count NL :=
  processChunk_identity_quote_free [[97, 44, 98], [99]] 0 (by decide) (by decide)

/-! ## A span past the end of a buffer with a long line -/

theorem scanNewline_prefix (p r : List Byte) (e : Nat) (h : ∀ c ∈ p, c ≠ NL) :
    scanNewline (p ++ NL :: r) e = e + p.length := by
  induction p generalizing e with
  | nil => simp [scanNewline]
  | cons c cs ih =>
    have hc : c ≠ NL := h c (List.mem_cons_self _ _)
    simp only [List.cons_append, scanNewline, ne_eq, hc, not_false_eq_true, if_true,
      List.length_cons, List.append_eq]
    rw [ih (e + 1) (fun x hx => h x (List.mem_cons_of_mem _ hx))]
    omega

/-- A buffer of 3072 bytes whose first line is 2100 bytes long, split three
ways: the second span is `{2101, 3125}`. -/
theorem splitAtNewlines_long_line (p1 p2 r : List Byte) (h1 : p1.length = 1024)
    (h2 : p2.length = 1076) (h3 : r.length = 971) (hp2 : ∀ c ∈ p2, c ≠ NL) :
    splitAtNewlines (p1 ++ (p2 ++ NL :: r)) 3 = some [⟨0, 2101⟩, ⟨2101, 3125⟩] := by
  have hl : (p1 ++ (p2 ++ NL :: r)).length = 3072 := by
    simp [h1, h2, h3]
  have hsz : Int.tdiv ((p1 ++ (p2 ++ NL :: r)).length : Int) 3 = 1024 := by rw [hl]; decide
  have hb1 : nextBoundary (p1 ++ (p2 ++ NL :: r)) 1024 0 = 2101 := by
    unfold nextBoundary
    have hd : List.drop (0 + 1024) (p1 ++ (p2 ++ NL :: r)) = p2 ++ NL :: r := by
      rw [Nat.zero_add, ← h1, List.drop_left]
    rw [hd, scanNewline_prefix p2 r _ hp2, h2, hl]
    decide
  have hb2 : nextBoundary (p1 ++ (p2 ++ NL :: r)) 1024 2101 = 3125 := by
    unfold nextBoundary
    have hd : List.drop (2101 + 1024) (p1 ++ (p2 ++ NL :: r)) = [] :=
      List.drop_eq_nil_of_le (by rw [hl]; decide)
    rw [hd, hl]
    decide
  unfold splitAtNewlines
  rw [if_neg (by rw [hl]; decide), if_neg (by decide)]
  simp only [hsz]
  rw [if_neg (by decide)]
  have e1 : (1024 : Int).toNat = 1024 := by decide
  have e2 : ((3 : Int) - 1).toNat = 2 := by decide
  rw [e1, e2]
  simp only [splitLoop, hb1, hb2, hl]
  simp

theorem replicate_no_nl (m : Nat) : ∀ c ∈ List.replicate m (120 : Byte), c ≠ NL := by
  intro c hc
  rw [List.eq_of_mem_replicate hc]
  decide

/-- C18 (fails on the code): on the buffer of 3072 bytes made of a line of 2100
bytes `'x'`, a newline and 971 bytes `'x'`, split three ways, the second span
is `{2101, 3125}`: its end lies 53 bytes past the end of the buffer, and the
copy of that span in `Process` takes the out-of-range branch. -/
theorem splitAtNewlines_span_out_of_range :
    splitAtNewlines
        (List.replicate 1024 120 ++ (List.replicate 1076 120 ++ NL :: List.replicate 971 120)) 3 =
      some [⟨0, 2101⟩, ⟨2101, 3125⟩] ∧
    (List.replicate 1024 (120 : Byte) ++
      (List.replicate 1076 120 ++ NL :: List.replicate 971 120)).length = 3072 ∧
    copySpan
        (List.replicate 1024 120 ++ (List.replicate 1076 120 ++ NL :: List.replicate 971 120))
        ⟨2101, 3125⟩ = none := by
  have hl : (List.replicate 1024 (120 : Byte) ++
      (List.replicate 1076 120 ++ NL :: List.replicate 971 120)).length = 3072 := by
    rw [List.length_append, List.length_append, List.length_cons, List.length_replicate,
      List.length_replicate, List.length_replicate]
  refine ⟨splitAtNewlines_long_line _ _ _ (List.length_replicate _ _) (List.length_replicate _ _)
    (List.length_replicate _ _) (replicate_no_nl _), hl, ?_⟩
  unfold copySpan
  rw [hl]
  decide

/-! ## Configuration -/

/-- What the constructors do with `Workers`: zero becomes the CPU count as it
is, any other value is kept. -/
theorem NewCSVProcessor_workers (numCPU : Int) (config : Config) :
    (NewCSVProcessor numCPU config).config.Workers =
      if config.Workers = 0 then numCPU else config.Workers := by
  unfold NewCSVProcessor
  split <;> simp_all

theorem NewJSONProcessor_workers (numCPU : Int) (config : Config) :
    (NewJSONProcessor numCPU config).config.Workers =
      if config.Workers = 0 then numCPU else config.Workers := by
  unfold NewJSONProcessor
  split <;> simp_all

/-- C15 (fails on the code): with 64 CPUs detected and `Workers == 0`, both
constructors set `Workers` to 64, not to `min(64, 32) = 32`; only
`DefaultConfig` applies the cap of 32. -/
theorem constructors_do_not_cap_workers (chunkSize : Int) :
    (NewCSVProcessor 64 ⟨0, chunkSize⟩).config.Workers = 64 ∧
    (NewJSONProcessor 64 ⟨0, chunkSize⟩).config.Workers = 64 ∧
    (DefaultConfig 64).Workers = 32 ∧
    min (64 : Int) 32 = 32 := by
  refine ⟨?_, ?_, by decide, by decide⟩
  · rw [NewCSVProcessor_workers]; rfl
  · rw [NewJSONProcessor_workers]; rfl

/-! ## The JSON processor -/

/-- C12: for every input whose first token is not the delimiter `[` (also when
reading the first token fails), whatever the transform, the encoder and the
fuel, `JSONProcessor.Process` returns an error at once: the output file is
created and no byte is written to it, and the counters are as before.  When
there is a first token, the error is the format error. -/
theorem JSONProcess_rejects_non_array {σ Obj : Type} (d : Decoder σ Obj)
    (marshal : Obj → Option (List Byte)) (transform : Obj → Obj) (stats : Stats) (s0 : σ)
    (fuel : Nat) (h : (d.token s0).1 ≠ some (Token.delim '[')) :
    (∃ e, JSONProcess d marshal transform stats s0 fuel = some (JSONOutcome.error e [] stats)) ∧
    ((d.token s0).1 ≠ none →
      JSONProcess d marshal transform stats s0 fuel =
        some (JSONOutcome.error JSONError.expectedArray [] stats)) := by
  unfold JSONProcess
  rcases hk : d.token s0 with ⟨tok, s1⟩
  rw [hk] at h
  cases tok with
  | none => exact ⟨⟨_, rfl⟩, fun h0 => by simp at h0⟩
  | some t =>
    cases t with
    | other => exact ⟨⟨_, rfl⟩, fun _ => rfl⟩
    | delim c =>
      have hc : c ≠ '[' := fun hc => h (by rw [hc])
      simp only
      rw [if_pos hc]
      exact ⟨⟨_, rfl⟩, fun _ => rfl⟩

/-- An instance of C12: an input whose first token is a string. -/
theorem JSONProcess_rejects_non_array_witness :
    (∃ e, JSONProcess (stringDecoder JObject) marshalObject setProcessed ⟨0, 0, 0⟩ () 5 =
      some (JSONOutcome.error e [] ⟨0, 0, 0⟩)) ∧
    (((stringDecoder JObject).token ()).1 ≠ none →
      JSONProcess (stringDecoder JObject) marshalObject setProcessed ⟨0, 0, 0⟩ () 5 =
        some (JSONOutcome.error JSONError.expectedArray [] ⟨0, 0, 0⟩)) :=
  JSONProcess_rejects_non_array (stringDecoder JObject) marshalObject setProcessed ⟨0, 0, 0⟩ () 5
    (by decide)

theorem joinWith_eq_emitAll (sep e : List Byte) (es : List (List Byte)) :
    joinWith sep (e :: es) = e ++ emitAll sep false es := by
  induction es generalizing e with
  | nil => simp [joinWith, emitAll]
  | cons e1 es ih =>
    rw [joinWith_cons sep e (e1 :: es) (by simp), ih e1]
    simp [emitAll]

theorem emitAll_true (sep : List Byte) (es : List (List Byte)) :
    emitAll sep true es = joinWith sep es := by
  cases es with
  | nil => rfl
  | cons e es => rw [joinWith_eq_emitAll]; rfl

theorem addLines_fields (stats : Stats) (k : Nat) :
    (addLines stats k).BytesRead = stats.BytesRead ∧
    (addLines stats k).BytesWritten = stats.BytesWritten ∧
    (stats.LinesProcessed < 2 ^ 64 →
      (addLines stats k).LinesProcessed = (stats.LinesProcessed + k) % 2 ^ 64) := by
  induction k generalizing stats with
  | zero =>
    refine ⟨rfl, rfl, fun h => ?_⟩
    simp only [addLines, Nat.add_zero]
    omega
  | succ k ih =>
    obtain ⟨h1, h2, h3⟩ := ih { stats with LinesProcessed := add64 stats.LinesProcessed 1 }
    refine ⟨h1, h2, fun _ => ?_⟩
    simp only [addLines]
    rw [h3 (by simp only [add64]; omega)]
    simp only [add64]
    omega

theorem addLines_fresh (k : Nat) (hk : k < 2 ^ 64) : addLines ⟨0, 0, 0⟩ k = ⟨k, 0, 0⟩ := by
  obtain ⟨h1, h2, h3⟩ := addLines_fields ⟨0, 0, 0⟩ k
  have h4 := h3 (by simp)
  simp only [Nat.zero_add] at h4
  rw [Nat.mod_eq_of_lt hk] at h4
  cases hs : addLines ⟨0, 0, 0⟩ k with
  | mk a b c =>
    rw [hs] at h1 h2 h4
    simp only at h1 h2 h4
    rw [h1, h2, h4]

/-- The loop, given fuel for the elements the decoder moves past, appends the
encodings of those that decode and encode, a separator before each but the
very first, and counts them. -/
theorem jsonLoop_trace {σ Obj : Type} (d : Decoder σ Obj) (marshal : Obj → Option (List Byte))
    (transform : Obj → Obj) (s : σ) (rs : List (Option Obj)) (htr : Trace d s rs) :
    ∀ (fuel : Nat) (first : Bool) (out : List Byte) (stats : Stats), rs.length < fuel →
      jsonLoop d marshal transform fuel s first out stats =
        some (out ++ emitAll (bytes ",\n") first (written marshal transform rs),
          addLines stats (written marshal transform rs).length) := by
  induction htr with
  | done s hm =>
    intro fuel first out stats hf
    cases fuel with
    | zero => omega
    | succ fuel => simp [jsonLoop, hm, written, emitAll, addLines]
  | step s s1 r rs hm hd _ ih =>
    intro fuel first out stats hf
    cases fuel with
    | zero => omega
    | succ fuel =>
      have hf2 : rs.length < fuel := by simp only [List.length_cons] at hf; omega
      rw [jsonLoop, if_pos hm, hd]
      cases r with
      | none =>
        simp only
        rw [ih fuel first out stats hf2]
        simp [written]
      | some o =>
        simp only
        cases hmo : marshal (transform o) with
        | none =>
          simp only
          rw [ih fuel first out stats hf2]
          simp [written, hmo]
        | some data =>
          simp only
          rw [ih fuel false _ _ hf2]
          have hw : written marshal transform (some o :: rs) =
              data :: written marshal transform rs := by
            simp [written, hmo]
          rw [hw]
          cases first <;> simp [emitAll, addLines]

/-- When the first token is `[` and the decoder moves past every element,
`Process` returns `nil` and the output is `[\n`, the encodings of the elements
that decode and encode joined with `,\n`, and `\n]`: an element whose decoding
fails but which has been read, or whose encoding fails, is dropped. -/
theorem JSONProcess_trace {σ Obj : Type} (d : Decoder σ Obj) (marshal : Obj → Option (List Byte))
    (transform : Obj → Obj) (stats : Stats) (s0 s1 : σ) (rs : List (Option Obj)) (fuel : Nat)
    (htok : d.token s0 = (some (Token.delim '['), s1)) (htr : Trace d s1 rs)
    (hf : rs.length < fuel) :
    JSONProcess d marshal transform stats s0 fuel =
      some (JSONOutcome.ok
        (bytes "[\n" ++ joinWith (bytes ",\n") (written marshal transform rs) ++ bytes "\n]")
        (addLines stats (written marshal transform rs).length)) := by
  unfold JSONProcess
  rw [htok]
  simp only [ne_eq, not_true_eq_false, if_false]
  rw [jsonLoop_trace d marshal transform s1 rs htr fuel true _ stats hf, emitAll_true]

theorem written_all (Obj : Type) (marshal : Obj → Option (List Byte)) (transform : Obj → Obj)
    (objs : List Obj) (encs : List (List Byte))
    (henc : objs.map (fun o => marshal (transform o)) = encs.map some) :
    written marshal transform (objs.map some) = encs := by
  unfold written
  induction objs generalizing encs with
  | nil =>
    cases encs with
    | nil => rfl
    | cons e es => simp at henc
  | cons o os ih =>
    cases encs with
    | nil => simp at henc
    | cons e es =>
      simp only [List.map_cons, List.cons.injEq] at henc
      simp only [List.map_cons, List.filterMap_cons]
      rw [ih es henc.2]
      simp [henc.1]

/-- C13: for every input that is an array of `k` elements each of which decodes
as an object (`objs`) and whose transform encodes without error (to `encs`),
`JSONProcessor.Process` on a fresh processor, given fuel for the `k` elements,
returns `nil`; the output is `[\n`, the encodings of the transformed elements
in input order joined with `,\n`, and `\n]`; and `LinesProcessed` is `k`. -/
theorem JSONProcess_array {σ Obj : Type} (d : Decoder σ Obj) (marshal : Obj → Option (List Byte))
    (transform : Obj → Obj) (s0 s1 : σ) (objs : List Obj) (encs : List (List Byte)) (fuel : Nat)
    (htok : d.token s0 = (some (Token.delim '['), s1))
    (htr : Trace d s1 (objs.map some))
    (henc : objs.map (fun o => marshal (transform o)) = encs.map some)
    (hf : objs.length < fuel) (hk : objs.length < 2 ^ 64) :
    JSONProcess d marshal transform ⟨0, 0, 0⟩ s0 fuel =
      some (JSONOutcome.ok (bytes "[\n" ++ joinWith (bytes ",\n") encs ++ bytes "\n]")
        ⟨objs.length, 0, 0⟩) := by
  have hlen : encs.length = objs.length := by
    have := congrArg List.length henc
    simpa using this.symm
  rw [JSONProcess_trace d marshal transform _ s0 s1 (objs.map some) fuel htok htr
      (by simpa using hf),
    written_all Obj marshal transform objs encs henc, hlen, addLines_fresh _ hk]

/-- An instance of C13, the scenario of `TestJSONProcessor`: the input
`[{"name":"foo"},{"name":"bar"}]` with the transform that sets `processed`. -/
theorem JSONProcess_array_witness :
    JSONProcess (arrayDecoder JObject) marshalObject setProcessed ⟨0, 0, 0⟩
        [Element.object [("name", JValue.str "foo")], Element.object [("name", JValue.str "bar")]]
        3 =
      some (JSONOutcome.ok
        (bytes "[\n" ++ joinWith (bytes ",\n")
          [bytes "\x7b\"name\":\"foo\",\"processed\":true\x7d",
            bytes "\x7b\"name\":\"bar\",\"processed\":true\x7d"] ++ bytes "\n]")
        ⟨[[("name", JValue.str "foo")], [("name", JValue.str "bar")]].length, 0, 0⟩) :=
  JSONProcess_array (arrayDecoder JObject) marshalObject setProcessed _ _
    [[("name", JValue.str "foo")], [("name", JValue.str "bar")]] _ 3 rfl
    (Trace.step _ _ _ _ rfl rfl (Trace.step _ _ _ _ rfl rfl (Trace.done _ rfl)))
    (by decide) (by decide) (by decide)

/-- A decoder state in which `More` reports an element and `Decode` fails
without moving: the loop never leaves it. -/
theorem jsonLoop_stuck {σ Obj : Type} (d : Decoder σ Obj) (marshal : Obj → Option (List Byte))
    (transform : Obj → Obj) (s : σ) (hm : d.more s = true) (hd : d.decode s = (none, s))
    (fuel : Nat) (first : Bool) (out : List Byte) (stats : Stats) :
    jsonLoop d marshal transform fuel s first out stats = none := by
  induction fuel with
  | zero => rfl
  | succ fuel ih =>
    rw [jsonLoop, if_pos hm, hd]
    exact ih

/-- C14 (fails on the code): on the input `[{"a":1}, not-json, {"a":2}]`, an
array whose second element is malformed, `JSONProcessor.Process` does not
return, whatever the fuel, the objects, the encoder and the transform: after
the syntax error `Decode` fails again and again on the same text while `More`
keeps reporting an element. -/
theorem JSONProcess_spins_on_malformed_element {Obj : Type} (marshal : Obj → Option (List Byte))
    (transform : Obj → Obj) (stats : Stats) (a1 a2 : Obj) (fuel : Nat) :
    JSONProcess (arrayDecoder Obj) marshal transform stats
      [Element.object a1, Element.malformed, Element.object a2] fuel = none := by
  have hstuck : ∀ (f : Nat) (first : Bool) (out : List Byte) (st : Stats),
      jsonLoop (arrayDecoder Obj) marshal transform f
        [Element.malformed, Element.object a2] first out st = none :=
    fun f first out st => jsonLoop_stuck _ marshal transform _ rfl rfl f first out st
  unfold JSONProcess
  simp only [arrayDecoder, ne_eq, not_true_eq_false, if_false]
  cases fuel with
  | zero => rfl
  | succ fuel =>
    rw [jsonLoop]
    simp only [List.isEmpty_cons, Bool.not_false, if_true]
    cases hmo : marshal (transform a1) with
    | none =>
      simp only
      have := hstuck fuel true (bytes "[\n") stats
      simp only [arrayDecoder] at this
      rw [this]
    | some data =>
      simp only
      have := hstuck fuel false (bytes "[\n" ++ data)
        { stats with LinesProcessed := add64 stats.LinesProcessed 1 }
      simp only [arrayDecoder] at this
      rw [this]

/-- The lenient policy where it works: in the array `[{"a":"x"}, 5, {"a":"y"}]`
the second element is a well-formed value that is no object; it is dropped and
the two objects are written. -/
theorem JSONProcess_drops_non_object :
    JSONProcess (arrayDecoder JObject) marshalObject (fun o => o) ⟨0, 0, 0⟩
        [Element.object [("a", JValue.str "x")], Element.notObject,
          Element.object [("a", JValue.str "y")]] 4 =
      some (JSONOutcome.ok (bytes "[\n\x7b\"a\":\"x\"\x7d,\n\x7b\"a\":\"y\"\x7d\n]") ⟨2, 0, 0⟩) := by
  decide

/-! ## Transforms that stay within their line -/

theorem slice_congr_drop (a b : List Byte) (pos e : Nat) (h : a.drop pos = b.drop pos) :
    slice a pos e = slice b pos e := by
  rw [slice_eq_take_drop, slice_eq_take_drop, h]

theorem drop_congr_ge (a b : List Byte) (m n : Nat) (hmn : m ≤ n) (h : a.drop m = b.drop m) :
    a.drop n = b.drop n := by
  have e1 : n = m + (n - m) := by omega
  rw [e1, ← List.drop_drop, ← List.drop_drop, h]

/-- The loop on a buffer that agrees with the chunk from `pos` on, with a
transform that stays within its lines and computes `f`, is the loop on values
with `f`. -/
theorem chunkLoopMem_refines (t : MemTransform) (f : Transform) (h : RespectsLines t f)
    (chunk0 : List Byte) (fuel : Nat) :
    ∀ (chunk : List Byte) (pos lineNum : Nat) (out : List Byte),
      chunk.length = chunk0.length → chunk.drop pos = chunk0.drop pos →
      chunkLoopMem t fuel chunk pos lineNum out = chunkLoop f chunk0 fuel pos lineNum out := by
  induction fuel with
  | zero => intro chunk pos lineNum out _ _; rfl
  | succ fuel ih =>
    intro chunk pos lineNum out hlen hdrop
    rw [chunkLoopMem, chunkLoop]
    by_cases hp : pos < chunk.length
    · rw [if_pos hp, if_pos (show pos < chunk0.length by omega)]
      have hge := scanNewline_ge (chunk.drop pos) pos
      have hle : scanNewline (chunk.drop pos) pos ≤ chunk.length := by
        have := scanNewline_le (chunk.drop pos) pos
        simp only [List.length_drop] at this
        omega
      have hstrip := stripCR_slice chunk pos _ hle
      have he1 : (if scanNewline (chunk.drop pos) pos - pos > 0 ∧
          chunk.get? (scanNewline (chunk.drop pos) pos - 1) = some CR
          then scanNewline (chunk.drop pos) pos - 1 else scanNewline (chunk.drop pos) pos)
          ≤ chunk.length := by
        split <;> omega
      have he1e : (if scanNewline (chunk.drop pos) pos - pos > 0 ∧
          chunk.get? (scanNewline (chunk.drop pos) pos - 1) = some CR
          then scanNewline (chunk.drop pos) pos - 1 else scanNewline (chunk.drop pos) pos)
          ≤ scanNewline (chunk.drop pos) pos := by
        split <;> omega
      simp only
      rw [← hdrop, ← slice_congr_drop chunk chunk0 pos _ hdrop, hstrip,
        slice_length chunk pos _ he1]
      by_cases hl : (if scanNewline (chunk.drop pos) pos - pos > 0 ∧
          chunk.get? (scanNewline (chunk.drop pos) pos - 1) = some CR
          then scanNewline (chunk.drop pos) pos - 1 else scanNewline (chunk.drop pos) pos) - pos > 0
      · rw [if_pos hl, if_pos hl]
        obtain ⟨h1, h2, h3⟩ := h lineNum chunk pos _ (by omega) he1
        simp only [lineViews] at h1 h2 h3
        rw [h3]
        apply ih
        · rw [h1, hlen]
        · rw [drop_congr_ge _ chunk _ _ (by omega) h2]
          exact drop_congr_ge chunk chunk0 pos _ (by omega) hdrop
      · rw [if_neg hl, if_neg hl]
        apply ih _ _ _ _ hlen
        exact drop_congr_ge chunk chunk0 pos _ (by omega) hdrop
    · rw [if_neg hp, if_neg (show ¬ pos < chunk0.length by omega)]

/-- For a transform that stays within its lines and computes `f`, the worker of
the code on the chunk buffer is the worker on values with `f`. -/
theorem processChunkMem_refines (t : MemTransform) (f : Transform) (h : RespectsLines t f)
    (chunk : List Byte) (id : Nat) :
    processChunkMem t chunk id = processChunk f chunk id := by
  unfold processChunkMem processChunk
  rw [chunkLoopMem_refines t f h chunk chunk.length chunk 0 0 [] rfl rfl]

/-- For such a transform `Process` on the buffer is `Process` on values. -/
theorem ProcessMem_refines (t : MemTransform) (f : Transform) (h : RespectsLines t f)
    (stats : Stats) (data : List Byte) (workers : Int) (order : List Nat) (createOk : Bool) :
    ProcessMem t stats data workers order createOk =
      Process f stats data workers order createOk := by
  unfold ProcessMem Process
  have : processChunkMem t = processChunk f := by
    funext chunk id
    exact processChunkMem_refines t f h chunk id
  rw [this]

/-- A transform that leaves the buffer alone and returns slices of its own
stays within its lines. -/
theorem liftTransform_respects (f : Transform) : RespectsLines (liftTransform f) f := by
  intro i chunk pos e1 _ he1
  refine ⟨rfl, rfl, ?_⟩
  simp only [liftTransform, lineViews]
  rw [views_bytes chunk pos e1 he1, List.map_map]
  have : (FieldRef.bytes chunk ∘ FieldRef.owned) = id := by
    funext x; rfl
  rw [this, List.map_id]

/-- The transform that returns the fields it was given stays within its
lines and is the identity on values. -/
theorem returnFieldsMem_respects : RespectsLines returnFieldsMem (fun _ fs => fs) := by
  intro i chunk pos e1 _ he1
  refine ⟨rfl, rfl, ?_⟩
  simp only [returnFieldsMem, lineViews]
  exact views_bytes chunk pos e1 he1

/-- On the chunk buffer, for every transform that stays within its lines and
computes `f`, the output of the worker is the concatenation over the kept
lines of the writer's line for `f` of the tokenized line, and its line count
is the number of kept lines. -/
theorem processChunkMem_eq_spec (t : MemTransform) (f : Transform) (h : RespectsLines t f)
    (chunk : List Byte) (id : Nat) :
    (processChunkMem t chunk id).data = specChunkOut f 0 (nonEmptyLines chunk) ∧
    (processChunkMem t chunk id).lines = (nonEmptyLines chunk).length := by
  rw [processChunkMem_refines t f h]
  exact ⟨processChunk_data f chunk id, processChunk_lines f chunk id⟩

/-- On the chunk buffer, for every transform that stays within its lines,
`LinesProcessed` after a call on a fresh processor that returns `nil` is the
number of non-empty lines of the file. -/
theorem ProcessMem_lines_processed (t : MemTransform) (f : Transform) (h : RespectsLines t f)
    (data : List Byte) (n : Int) (order : List Nat) (createOk : Bool)
    (out : Option (List Byte)) (st : Stats) (hn : 1 ≤ n) (hlen : data.length < 2 ^ 63)
    (hp : ∃ spans, splitAtNewlines data n = some spans ∧ order.Perm (List.range spans.length))
    (hok : ProcessMem t ⟨0, 0, 0⟩ data n order createOk = Outcome.ok out st) :
    st.LinesProcessed = (nonEmptyLines data).length := by
  rw [ProcessMem_refines t f h] at hok
  exact (Process_lines_processed f data n order createOk out st hn hlen hp hok).1

/-- On the chunk buffer, for every transform that stays within its lines and
ignores its line index, chunking at newlines is transparent. -/
theorem chunkingMem_transparent (t : MemTransform) (f : Transform) (h : RespectsLines t f)
    (data : List Byte) (spans : List span) (ht : ∀ i j fs, f i fs = f j fs)
    (hc : Contiguous 0 spans) (hend : chainEnd 0 spans = data.length)
    (hle : ∀ c ∈ spans, c.start ≤ c.stop)
    (hal : ∀ c ∈ spans, 0 < c.stop → c.stop < data.length → data[c.stop - 1]? = some NL) :
    concatOutputs (processChunkMem t) (spanBytes data spans) = (processChunkMem t data 0).data ∧
    ((resultsInOrder (processChunkMem t) 0 (spanBytes data spans)).map chunkResult.lines).sum =
      (processChunkMem t data 0).lines := by
  have : processChunkMem t = processChunk f := by
    funext chunk id
    exact processChunkMem_refines t f h chunk id
  rw [this]
  exact chunking_transparent f data spans ht hc hend hle hal

/-! ## Transforms that write past their line -/

/-- C5 (fails on the code): on the chunk `a,b,c\nd,e` with the transform that
appends `WXYZ` to `fields[1]` by Go's `append`, `processChunk` returns
`a,bWXYZ,X\nZ,eWXYZ\n`, while the concatenation over the two segments of
`writeCSVLine(transform(i, parseCSVLine(segment)))` is `a,bWXYZ,c\nd,eWXYZ\n`:
the appended bytes overwrite the rest of line 0 and the start of line 1 in the
chunk buffer. -/
theorem processChunk_append_overwrites_chunk :
    processChunkMem (appendToSecondMem (bytes "WXYZ")) (bytes "a,b,c\nd,e") 0 =
      ⟨0, bytes "a,bWXYZ,X\nZ,eWXYZ\n", 2⟩ ∧
    segments (bytes "a,b,c\nd,e") = [bytes "a,b,c", bytes "d,e"] ∧
    writeCSVLine [] (appendToSecond (bytes "WXYZ") 0 (parseCSVLine (bytes "a,b,c") [])) ++
      writeCSVLine [] (appendToSecond (bytes "WXYZ") 1 (parseCSVLine (bytes "d,e") [])) =
        bytes "a,bWXYZ,c\nd,eWXYZ\n" := by
  decide

/-- C6 (fails on the code): on the file `a,b\n\n\n`, which has one non-empty
line, with the transform that appends `_x` to `fields[1]` by Go's `append`,
for every worker count `n >= 1`, `Process` on a fresh processor returns `nil`
with `LinesProcessed = 2`: the appended bytes overwrite the two newlines after
line 0, and the worker then reads `x` as a second line. -/
theorem Process_counts_overwritten_bytes_as_line (n : Int) (hn : 1 ≤ n) :
    ProcessMem (appendToSecondMem (bytes "_x")) ⟨0, 0, 0⟩ (bytes "a,b\n\n\n") n [0] true =
      Outcome.ok (some (bytes "a,b_x\nx\n")) ⟨2, 6, 8⟩ ∧
    segments (bytes "a,b\n\n\n") = [bytes "a,b", [], [], []] := by
  have hl : (bytes "a,b\n\n\n").length = 6 := by decide
  have hs : splitAtNewlines (bytes "a,b\n\n\n") n = splitAtNewlines (bytes "a,b\n\n\n") 1 := by
    rw [splitAtNewlines_small _ n (by rw [hl]; decide) hn (by rw [hl]; decide),
      splitAtNewlines_small _ 1 (by rw [hl]; decide) (by decide) (by rw [hl]; decide)]
  constructor
  · rw [ProcessMem, ProcessWith_split_congr _ _ _ n 1 _ _ hs]
    decide
  · decide

/-- An instance of the evaluation for C6: eight workers. -/
theorem Process_counts_overwritten_bytes_as_line_witness :
    ProcessMem (appendToSecondMem (bytes "_x")) ⟨0, 0, 0⟩ (bytes "a,b\n\n\n") 8 [0] true =
      Outcome.ok (some (bytes "a,b_x\nx\n")) ⟨2, 6, 8⟩ ∧
    segments (bytes "a,b\n\n\n") = [bytes "a,b", [], [], []] :=
  Process_counts_overwritten_bytes_as_line 8 (by decide)

/-- C17 (fails on the code): the buffer `a,b\nc,d\n` with the spans `{0,4}` and
`{4,8}`, contiguous, covering the buffer and cut after a newline, and the
transform that appends `XY` to `fields[1]` by Go's `append`, which ignores its
line index: the outputs of `processChunk` on the spans concatenate to
`a,bXY\nc,dXY\n`, but on the whole buffer `processChunk` returns
`a,bXY\nY,dXY\n`, because there the append has room in the buffer and
overwrites the start of the next line. -/
theorem chunking_not_transparent_for_append :
    Contiguous 0 [⟨0, 4⟩, ⟨4, 8⟩] ∧
    chainEnd 0 [⟨0, 4⟩, ⟨4, 8⟩] = (bytes "a,b\nc,d\n").length ∧
    (∀ c ∈ [(⟨0, 4⟩ : span), ⟨4, 8⟩], 0 < c.stop → c.stop < (bytes "a,b\nc,d\n").length →
      (bytes "a,b\nc,d\n")[c.stop - 1]? = some NL) ∧
    (∀ (i j : Nat) (chunk : List Byte) (fields : List FieldRef),
      appendToSecondMem (bytes "XY") i chunk fields =
        appendToSecondMem (bytes "XY") j chunk fields) ∧
    concatOutputs (processChunkMem (appendToSecondMem (bytes "XY")))
        (spanBytes (bytes "a,b\nc,d\n") [⟨0, 4⟩, ⟨4, 8⟩]) = bytes "a,bXY\nc,dXY\n" ∧
    (processChunkMem (appendToSecondMem (bytes "XY")) (bytes "a,b\nc,d\n") 0).data =
      bytes "a,bXY\nY,dXY\n" := by
  refine ⟨by simp [Contiguous], by decide, by decide, fun _ _ _ _ => rfl, by decide, by decide⟩

/-- C2 (fails on the code): the buffer of 3072 bytes `'a'` is one line without
a trailing newline, starting at offset 0; split three ways its spans are
`{0, 3072}` and `{3072, 4096}`, and the last span starts at 3072: the line
lies in the first span, not in the last one. -/
theorem final_line_not_in_last_span :
    splitAtNewlines (List.replicate 3072 97) 3 = some [⟨0, 3072⟩, ⟨3072, 4096⟩] ∧
    (∀ c ∈ List.replicate 3072 (97 : Byte), c ≠ NL) ∧
    [(⟨0, 3072⟩ : span), ⟨3072, 4096⟩].getLast? = some ⟨3072, 4096⟩ ∧
    ¬ ((⟨3072, 4096⟩ : span).start ≤ 0) := by
  refine ⟨splitAtNewlines_no_nl_3072 _ (List.length_replicate _ _) (replicate_a_no_nl _),
    replicate_a_no_nl _, by decide, by decide⟩

/-! ## A boundary inside the buffer -/

/-- A buffer of 3072 bytes whose first line is 2100 bytes long, split two ways:
the boundary between the two spans is right after the newline of that line. -/
theorem splitAtNewlines_two_spans (p1 p2 r : List Byte) (h1 : p1.length = 1536)
    (h2 : p2.length = 564) (h3 : r.length = 971) (hp2 : ∀ c ∈ p2, c ≠ NL) :
    splitAtNewlines (p1 ++ (p2 ++ NL :: r)) 2 = some [⟨0, 2101⟩, ⟨2101, 3072⟩] := by
  have hl : (p1 ++ (p2 ++ NL :: r)).length = 3072 := by
    simp [h1, h2, h3]
  have hsz : Int.tdiv ((p1 ++ (p2 ++ NL :: r)).length : Int) 2 = 1536 := by rw [hl]; decide
  have hb1 : nextBoundary (p1 ++ (p2 ++ NL :: r)) 1536 0 = 2101 := by
    unfold nextBoundary
    have hd : List.drop (0 + 1536) (p1 ++ (p2 ++ NL :: r)) = p2 ++ NL :: r := by
      rw [Nat.zero_add, ← h1, List.drop_left]
    rw [hd, scanNewline_prefix p2 r _ hp2, h2, hl]
    decide
  unfold splitAtNewlines
  rw [if_neg (by rw [hl]; decide), if_neg (by decide)]
  simp only [hsz]
  rw [if_neg (by decide)]
  have e1 : (1536 : Int).toNat = 1536 := by decide
  have e2 : ((2 : Int) - 1).toNat = 1 := by decide
  rw [e1, e2]
  simp only [splitLoop, hb1, hl]
  simp

theorem getElem?_after_prefixes (p1 p2 r : List Byte) :
    (p1 ++ (p2 ++ NL :: r))[p1.length + p2.length]? = some NL := by
  rw [List.getElem?_append_right (by omega),
    show p1.length + p2.length - p1.length = p2.length from by omega,
    List.getElem?_append_right (Nat.le_refl _), Nat.sub_self]
  exact List.getElem?_cons_zero

/-- An instance with a boundary inside the buffer: 2100 bytes `'x'`, a newline
and 971 bytes `'x'`, split two ways, are the spans `{0, 2101}` and
`{2101, 3072}`, and the byte before offset 2101 is the newline. -/
theorem splitAtNewlines_interior_boundary :
    splitAtNewlines
        (List.replicate 1536 120 ++ (List.replicate 564 120 ++ NL :: List.replicate 971 120)) 2 =
      some [⟨0, 2101⟩, ⟨2101, 3072⟩] ∧
    (List.replicate 1536 (120 : Byte) ++
      (List.replicate 564 120 ++ NL :: List.replicate 971 120))[2100]? = some NL := by
  refine ⟨splitAtNewlines_two_spans _ _ _ (List.length_replicate _ _) (List.length_replicate _ _)
    (List.length_replicate _ _) (replicate_no_nl _), ?_⟩
  have := getElem?_after_prefixes (List.replicate 1536 120) (List.replicate 564 120)
    (List.replicate 971 120)
  rw [List.length_replicate, List.length_replicate] at this
  exact this

end Gofileproc
